import Mathlib

/-!
Verification of the Brainfuck interpreter in `src/lib.rs` (crate `rust_bf`).

The development shallowly embeds the two core functions of the crate:

* `Program::parse` (translation: lexical filtering, coalescing of adjacent
  `Add`/`Ptr` instructions, and bracket resolution), and
* `Program::run` (the execution engine over a growable tape).

Machine integers are embedded as `Nat`/`Int` with explicit wrap-around:
`u8` cells live in `Nat` with `% 256`, `isize` move deltas live in `Int`,
and `usize` pointer arithmetic is `Nat` with an explicit `USIZE_MAX` bound
for `checked_add`.  A `Vec` index `mem[ptr]` out of bounds is a Rust panic,
embedded as the distinct `StepResult.panic` outcome.  Fallible reads from
the input stream are a list of `InEvent`s (a byte, or a read failure).
-/

namespace RustBf

/-- The instruction set, from the `Instr` enum of `src/lib.rs`.
`Add` carries a `u8` delta (a `Nat`, kept below 256 by wrap-around),
`Ptr` an `isize` delta (an `Int`), and the loop brackets carry the
index of the matching partner bracket once resolved. -/
inductive Instr where
  | Add (x : Nat)
  | Ptr (x : Int)
  | LoopBegin (x : Nat)
  | LoopEnd (x : Nat)
  | Out
  | In
deriving DecidableEq, Repr

/-- `const INITIAL_CAPACITY: usize = 30000;` from `src/lib.rs`. -/
def INITIAL_CAPACITY : Nat := 30000

/-- The largest value of a 64-bit `usize`; `ptr.checked_add` fails beyond it. -/
def USIZE_MAX : Nat := 2 ^ 64 - 1

/-- The `filter_map` closure of `Program::parse`: maps a source character to
its primitive instruction, dropping every non-command character.
`-` becomes `Add (0u8.wrapping_sub(1)) = Add 255`. -/
def charToInstr (c : Char) : Option Instr :=
  if c = '+' then some (.Add 1)
  else if c = '-' then some (.Add 255)
  else if c = '>' then some (.Ptr 1)
  else if c = '<' then some (.Ptr (-1))
  else if c = '[' then some (.LoopBegin 0)
  else if c = ']' then some (.LoopEnd 0)
  else if c = '.' then some (.Out)
  else if c = ',' then some (.In)
  else none

/-- The merge function given to itertools' `coalesce` in `Program::parse`:
adjacent `Add`s merge with wrapping `u8` addition, adjacent `Ptr`s merge
with `isize` addition, everything else does not merge. -/
def coalesceFn (a b : Instr) : Option Instr :=
  match a, b with
  | .Add c, .Add d => some (.Add ((c + d) % 256))
  | .Ptr c, .Ptr d => some (.Ptr (c + d))
  | _, _ => none

/-- The accumulator loop of itertools' `coalesce`: `a` is the pending
instruction; each next instruction either merges into it or flushes it. -/
def coalesceGo (a : Instr) : List Instr → List Instr
  | [] => [a]
  | b :: rest =>
    match coalesceFn a b with
    | some m => coalesceGo m rest
    | none => a :: coalesceGo b rest

/-- itertools' `coalesce` over a whole instruction list. -/
def coalesce : List Instr → List Instr
  | [] => []
  | x :: xs => coalesceGo x xs

/-- The two syntax errors of `Program::parse`: an unmatched closing bracket
at a 0-indexed position of the scanned instruction stream, or a count of
unmatched opening brackets left on the stack. -/
inductive SynErr where
  | unmatchedClosing (pos : Nat)
  | unmatchedOpening (count : Nat)
deriving DecidableEq, Repr

/-- The bracket-resolution loop `for i in 0..program.len()` of
`Program::parse`.  `gas` counts the remaining iterations (the caller passes
`prog.length`, so `gas = 0` exactly when `i` reaches the length).  On a
`LoopEnd` it pops the stack (failing with `unmatchedClosing i` if empty)
and links the two brackets by writing each other's index. -/
def resolveGo : Nat → List Instr → List Nat → Nat → Except SynErr (List Instr × List Nat)
  | 0, prog, stack, _ => .ok (prog, stack)
  | gas + 1, prog, stack, i =>
    match prog[i]? with
    | none => .ok (prog, stack)
    | some (.LoopBegin _) => resolveGo gas prog (i :: stack) (i + 1)
    | some (.LoopEnd _) =>
      match stack with
      | [] => .error (.unmatchedClosing i)
      | other :: rest =>
        resolveGo gas ((prog.set i (.LoopEnd other)).set other (.LoopBegin i)) rest (i + 1)
    | some _ => resolveGo gas prog stack (i + 1)

/-- `Program::parse`: filter the source characters, coalesce adjacent
arithmetic instructions, then resolve brackets; fail with
`unmatchedOpening` if the stack is nonempty at the end. -/
def parse (src : List Char) : Except SynErr (List Instr) :=
  let prog := coalesce (src.filterMap charToInstr)
  match resolveGo prog.length prog [] 0 with
  | .error e => .error e
  | .ok (prog2, stack) =>
    match stack with
    | [] => .ok prog2
    | _ => .error (.unmatchedOpening stack.length)

/-- Modelled from the spec, for the refinement claim: the unoptimized
command-by-command translation, in which each `+`, `-`, `>`, `<` stays a
separate `Add 1`, `Add 255`, `Ptr 1`, `Ptr (-1)` instruction (no
coalescing), with brackets resolved by the same scan. -/
def parseUnopt (src : List Char) : Except SynErr (List Instr) :=
  let prog := src.filterMap charToInstr
  match resolveGo prog.length prog [] 0 with
  | .error e => .error e
  | .ok (prog2, stack) =>
    match stack with
    | [] => .ok prog2
    | _ => .error (.unmatchedOpening stack.length)

/-- The runtime errors of `Program::run`: `bail!("BF pointer overflow")`,
`bail!("BF pointer underflow")`, `bail!("Read error!")`. -/
inductive RunErr where
  | ptrOverflow
  | ptrUnderflow
  | readError
deriving DecidableEq, Repr

/-- One item of the byte input stream: `input.bytes()` yields either a byte
(`Some(Ok(v))`) or a read failure (`Some(Err(_))`); end of the list is
end-of-stream (`None`). -/
inductive InEvent where
  | byte (b : Nat)
  | fail
deriving DecidableEq, Repr

/-- The mutable state of `Program::run`: tape `mem`, data pointer `ptr`,
program counter `pc`, the remaining input stream, and the bytes written to
the output stream so far. -/
structure BfState where
  mem : List Nat
  ptr : Nat
  pc : Nat
  input : List InEvent
  output : List Nat
deriving DecidableEq, Repr

/-- UTF-8 encoding of a code point below 0x800, as the bytes Rust's
`write!(writer, "{}", mem[ptr] as char)` emits: a cell value is read as a
`char` with that code point and written in its encoded form. -/
def utf8Encode (cp : Nat) : List Nat :=
  if cp < 128 then [cp] else [192 + cp / 64, 128 + cp % 64]

/-- Result of interpreting one instruction of the dispatch loop. -/
inductive StepResult where
  | next (s : BfState)
  | halt
  | err (e : RunErr)
  | panic
deriving DecidableEq, Repr

/-- One iteration of the `while pc < self.instrs.len()` dispatch loop of
`Program::run`.  `halt` is the loop exiting; `panic` is an out-of-bounds
`mem[ptr]` index (a Rust panic, distinct from the `bail!` errors). -/
def step (prog : List Instr) (s : BfState) : StepResult :=
  match prog[s.pc]? with
  | none => .halt
  | some ins =>
    match ins with
    | .Add x =>
      if s.ptr < s.mem.length then
        .next { s with mem := s.mem.set s.ptr ((s.mem.getD s.ptr 0 + x) % 256),
                       pc := s.pc + 1 }
      else .panic
    | .Ptr x =>
      if 0 ≤ x then
        if s.ptr + x.toNat ≤ USIZE_MAX then
          let p := s.ptr + x.toNat
          .next { s with ptr := p,
                         mem := if s.mem.length ≤ p then s.mem ++ [0] else s.mem,
                         pc := s.pc + 1 }
        else .err .ptrOverflow
      else
        if (-x).toNat ≤ s.ptr then
          let p := s.ptr - (-x).toNat
          .next { s with ptr := p,
                         mem := if s.mem.length ≤ p then s.mem ++ [0] else s.mem,
                         pc := s.pc + 1 }
        else .err .ptrUnderflow
    | .LoopBegin x =>
      if s.ptr < s.mem.length then
        .next { s with pc := (if s.mem.getD s.ptr 0 = 0 then x else s.pc) + 1 }
      else .panic
    | .LoopEnd x =>
      if s.ptr < s.mem.length then
        .next { s with pc := (if s.mem.getD s.ptr 0 ≠ 0 then x else s.pc) + 1 }
      else .panic
    | .Out =>
      if s.ptr < s.mem.length then
        .next { s with output := s.output ++ utf8Encode (s.mem.getD s.ptr 0),
                       pc := s.pc + 1 }
      else .panic
    | .In =>
      match s.input with
      | [] =>
        if s.ptr < s.mem.length then
          .next { s with mem := s.mem.set s.ptr 0, pc := s.pc + 1 }
        else .panic
      | .byte b :: rest =>
        if s.ptr < s.mem.length then
          .next { s with mem := s.mem.set s.ptr (b % 256), input := rest, pc := s.pc + 1 }
        else .panic
      | .fail :: _ => .err .readError

/-- Outcome of a bounded run: normal completion with the emitted bytes,
a `bail!` error, a Rust panic, or fuel exhaustion. -/
inductive RunOutcome where
  | ok (out : List Nat)
  | err (e : RunErr) (out : List Nat)
  | panic (out : List Nat)
  | timeout
deriving DecidableEq, Repr

/-- The dispatch loop of `Program::run`, iterated up to `fuel` times. -/
def runFuel (prog : List Instr) : Nat → BfState → RunOutcome
  | 0, _ => .timeout
  | fuel + 1, s =>
    match step prog s with
    | .halt => .ok s.output
    | .err e => .err e s.output
    | .panic => .panic s.output
    | .next s' => runFuel prog fuel s'

/-- The state after exactly `k` successful steps (`none` if the loop
halts, errs or panics before that). -/
def iterN (prog : List Instr) : Nat → BfState → Option BfState
  | 0, s => some s
  | k + 1, s =>
    match step prog s with
    | .next s' => iterN prog k s'
    | _ => none

/-- The state at the top of `Program::run`: a tape of `INITIAL_CAPACITY`
zero cells, pointer and program counter at 0, no output yet. -/
def initState (input : List InEvent) : BfState :=
  { mem := List.replicate INITIAL_CAPACITY 0, ptr := 0, pc := 0,
    input := input, output := [] }

/-- The bracket scan of `Program::parse` with the in-place writes factored
out: scanning the instructions from absolute index `i` with a stack `st` of
pending `LoopBegin` indices, it returns the list of `(begin, end)` index
pairs matched by the stack discipline together with the final stack, or the
absolute index of the first closing bracket popped from an empty stack. -/
def scanBr : List Instr → Nat → List Nat → Except Nat (List (Nat × Nat) × List Nat)
  | [], _, st => .ok ([], st)
  | ins :: rest, i, st =>
    match ins with
    | .LoopBegin _ => scanBr rest (i + 1) (i :: st)
    | .LoopEnd _ =>
      match st with
      | [] => .error i
      | b :: st' =>
        match scanBr rest (i + 1) st' with
        | .error j => .error j
        | .ok (pairs, fin) => .ok ((b, i) :: pairs, fin)
    | _ => scanBr rest (i + 1) st

/-- The in-place writes of the bracket-resolution loop, replayed: for each
matched pair `(b, e)` write `LoopEnd b` at index `e` and `LoopBegin e` at
index `b`, in scan order. -/
def writes : List (Nat × Nat) → List Instr → List Instr
  | [], prog => prog
  | (b, e) :: rest, prog => writes rest ((prog.set e (.LoopEnd b)).set b (.LoopBegin e))

/-- Position of the first closing bracket encountered with no pending
opening bracket, scanning with `d` opening brackets already pending; this
is the claim's notion of an unmatched closing bracket. -/
def firstBad : List Instr → Nat → Option Nat
  | [], _ => none
  | .LoopBegin _ :: r, d => (firstBad r (d + 1)).map (· + 1)
  | .LoopEnd _ :: r, d =>
    match d with
    | 0 => some 0
    | d' + 1 => (firstBad r d').map (· + 1)
  | _ :: r, d => (firstBad r d).map (· + 1)

/-- Number of opening brackets still pending after the whole scan, starting
from `d` pending; this is the claim's unmatched-opening-bracket count (the
stack depth at the end of the scan). -/
def netDepth : List Instr → Nat → Nat
  | [], d => d
  | .LoopBegin _ :: r, d => netDepth r (d + 1)
  | .LoopEnd _ :: r, d =>
    match d with
    | 0 => netDepth r 0
    | d' + 1 => netDepth r d'
  | _ :: r, d => netDepth r d

/-- A coalesced instruction together with the run of primitive
instructions it stands for: an `Add s` stands for a nonempty run of `Add`s
whose deltas sum to `s` modulo 256, a `Ptr d` for a nonempty run of `Ptr`s
whose deltas sum to `d`, and every other instruction for itself. -/
def SegMatch : Instr → List Instr → Prop
  | .Add s, seg => ∃ ds : List Nat, ds ≠ [] ∧ seg = ds.map Instr.Add ∧ ds.sum % 256 = s % 256
  | .Ptr d, seg => ∃ ds : List Int, ds ≠ [] ∧ seg = ds.map Instr.Ptr ∧ ds.sum = d
  | q, seg => seg = [q]

/-- A coalesced instruction sequence together with the segment of primitive
instructions each of its entries stands for. -/
inductive Chunked : List Instr → List (List Instr) → Prop
  | nil : Chunked [] []
  | cons {q seg Q segs} : SegMatch q seg → Chunked Q segs → Chunked (q :: Q) (seg :: segs)

/-- Start index, in the concatenated primitive sequence, of the `k`-th
segment of a chunking. -/
def startN (segs : List (List Instr)) (k : Nat) : Nat :=
  ((segs.take k).map List.length).sum

/-! ### Basic facts about the bracket-resolution pass -/

theorem drop_set_of_lt {l : List Instr} {j k : Nat} (a : Instr) (h : j < k) :
    (l.set j a).drop k = l.drop k := by
  apply List.ext_getElem?
  intro n
  rw [List.getElem?_drop, List.getElem?_drop, List.getElem?_set_ne (by omega)]

theorem writes_length (pairs : List (Nat × Nat)) (prog : List Instr) :
    (writes pairs prog).length = prog.length := by
  induction pairs generalizing prog with
  | nil => rfl
  | cons p rest ih =>
    obtain ⟨b, e⟩ := p
    rw [writes, ih, List.length_set, List.length_set]

theorem resolveGo_succ (gas : Nat) (prog : List Instr) (st : List Nat) (i : Nat) :
    resolveGo (gas + 1) prog st i =
      match prog[i]? with
      | none => .ok (prog, st)
      | some (.LoopBegin _) => resolveGo gas prog (i :: st) (i + 1)
      | some (.LoopEnd _) =>
        (match st with
         | [] => .error (.unmatchedClosing i)
         | other :: rest =>
           resolveGo gas ((prog.set i (.LoopEnd other)).set other (.LoopBegin i)) rest (i + 1))
      | some _ => resolveGo gas prog st (i + 1) := rfl

/-- `resolveGo` run to the end of the program is the pure scan followed by
the replayed writes. -/
theorem resolveGo_eq_scan :
    ∀ (gas : Nat) (prog : List Instr) (st : List Nat) (i : Nat),
      prog.length ≤ gas + i → (∀ b ∈ st, b < i) →
      resolveGo gas prog st i =
        (match scanBr (prog.drop i) i st with
         | .error j => .error (.unmatchedClosing j)
         | .ok (pairs, fin) => .ok (writes pairs prog, fin)) := by
  intro gas
  induction gas with
  | zero =>
    intro prog st i hle hst
    rw [List.drop_eq_nil_of_le (by omega)]
    simp [resolveGo, scanBr, writes]
  | succ gas ih =>
    intro prog st i hle hst
    by_cases h : i < prog.length
    · rw [List.drop_eq_getElem_cons h]
      have hgi : prog[i]? = some prog[i] := List.getElem?_eq_getElem h
      cases hins : prog[i] with
      | Add x =>
        rw [hins] at hgi
        rw [resolveGo_succ]
        simp only [hgi]
        rw [show scanBr (Instr.Add x :: prog.drop (i + 1)) i st
            = scanBr (prog.drop (i + 1)) (i + 1) st from rfl]
        exact ih prog st (i + 1) (by omega) (fun b hb => Nat.lt_succ_of_lt (hst b hb))
      | Ptr x =>
        rw [hins] at hgi
        rw [resolveGo_succ]
        simp only [hgi]
        rw [show scanBr (Instr.Ptr x :: prog.drop (i + 1)) i st
            = scanBr (prog.drop (i + 1)) (i + 1) st from rfl]
        exact ih prog st (i + 1) (by omega) (fun b hb => Nat.lt_succ_of_lt (hst b hb))
      | Out =>
        rw [hins] at hgi
        rw [resolveGo_succ]
        simp only [hgi]
        rw [show scanBr (Instr.Out :: prog.drop (i + 1)) i st
            = scanBr (prog.drop (i + 1)) (i + 1) st from rfl]
        exact ih prog st (i + 1) (by omega) (fun b hb => Nat.lt_succ_of_lt (hst b hb))
      | In =>
        rw [hins] at hgi
        rw [resolveGo_succ]
        simp only [hgi]
        rw [show scanBr (Instr.In :: prog.drop (i + 1)) i st
            = scanBr (prog.drop (i + 1)) (i + 1) st from rfl]
        exact ih prog st (i + 1) (by omega) (fun b hb => Nat.lt_succ_of_lt (hst b hb))
      | LoopBegin t =>
        rw [hins] at hgi
        rw [resolveGo_succ]
        simp only [hgi]
        rw [show scanBr (Instr.LoopBegin t :: prog.drop (i + 1)) i st
            = scanBr (prog.drop (i + 1)) (i + 1) (i :: st) from rfl]
        refine ih prog (i :: st) (i + 1) (by omega) ?_
        intro b hb
        rcases List.mem_cons.mp hb with hb | hb
        · omega
        · exact Nat.lt_succ_of_lt (hst b hb)
      | LoopEnd t =>
        rw [hins] at hgi
        cases hstk : st with
        | nil =>
          rw [resolveGo_succ]
          simp only [hgi]
          rfl
        | cons other rest =>
          subst hstk
          have hother : other < i := hst other (List.mem_cons_self other rest)
          have hdrop : ((prog.set i (.LoopEnd other)).set other (.LoopBegin i)).drop (i + 1)
              = prog.drop (i + 1) := by
            rw [drop_set_of_lt _ (by omega), drop_set_of_lt _ (by omega)]
          rw [resolveGo_succ]
          simp only [hgi]
          rw [ih _ rest (i + 1)
              (by rw [List.length_set, List.length_set]; omega)
              (fun b hb => Nat.lt_succ_of_lt (hst b (List.mem_cons_of_mem other hb))),
            hdrop]
          rw [show scanBr (Instr.LoopEnd t :: prog.drop (i + 1)) i (other :: rest)
              = (match scanBr (prog.drop (i + 1)) (i + 1) rest with
                 | .error j => .error j
                 | .ok (pairs, fin) => .ok ((other, i) :: pairs, fin)) from rfl]
          cases scanBr (prog.drop (i + 1)) (i + 1) rest with
          | error j => rfl
          | ok pr =>
            obtain ⟨pairs, fin⟩ := pr
            rfl
    · rw [List.drop_eq_nil_of_le (by omega)]
      have hgi : prog[i]? = none := List.getElem?_eq_none (by omega)
      rw [resolveGo_succ]
      simp only [hgi]
      rfl

/-- `parse` in terms of the pure bracket scan over the coalesced stream. -/
theorem parse_eq_scan (src : List Char) :
    parse src =
      (match scanBr (coalesce (src.filterMap charToInstr)) 0 [] with
       | .error j => .error (.unmatchedClosing j)
       | .ok (pairs, []) => .ok (writes pairs (coalesce (src.filterMap charToInstr)))
       | .ok (_, f :: fs) => .error (.unmatchedOpening (f :: fs).length)) := by
  have h := resolveGo_eq_scan (coalesce (src.filterMap charToInstr)).length
      (coalesce (src.filterMap charToInstr)) [] 0 (by omega) (by simp)
  rw [List.drop_zero] at h
  rw [parse, h]
  cases scanBr (coalesce (src.filterMap charToInstr)) 0 [] with
  | error j => rfl
  | ok pr =>
    obtain ⟨pairs, fin⟩ := pr
    cases fin with
    | nil => rfl
    | cons f fs => rfl

/-- `parseUnopt` in terms of the pure bracket scan over the primitive
stream. -/
theorem parseUnopt_eq_scan (src : List Char) :
    parseUnopt src =
      (match scanBr (src.filterMap charToInstr) 0 [] with
       | .error j => .error (.unmatchedClosing j)
       | .ok (pairs, []) => .ok (writes pairs (src.filterMap charToInstr))
       | .ok (_, f :: fs) => .error (.unmatchedOpening (f :: fs).length)) := by
  have h := resolveGo_eq_scan (src.filterMap charToInstr).length
      (src.filterMap charToInstr) [] 0 (by omega) (by simp)
  rw [List.drop_zero] at h
  rw [parseUnopt, h]
  cases scanBr (src.filterMap charToInstr) 0 [] with
  | error j => rfl
  | ok pr =>
    obtain ⟨pairs, fin⟩ := pr
    cases fin with
    | nil => rfl
    | cons f fs => rfl

theorem scanBr_nil (i : Nat) (st : List Nat) : scanBr [] i st = .ok ([], st) := rfl

theorem scanBr_cons (ins : Instr) (rest : List Instr) (i : Nat) (st : List Nat) :
    scanBr (ins :: rest) i st =
      match ins with
      | .LoopBegin _ => scanBr rest (i + 1) (i :: st)
      | .LoopEnd _ =>
        (match st with
         | [] => .error i
         | b :: st' =>
           (match scanBr rest (i + 1) st' with
            | .error j => .error j
            | .ok (pairs, fin) => .ok ((b, i) :: pairs, fin)))
      | _ => scanBr rest (i + 1) st := rfl

theorem firstBad_cons (ins : Instr) (r : List Instr) (d : Nat) :
    firstBad (ins :: r) d =
      match ins with
      | .LoopBegin _ => (firstBad r (d + 1)).map (· + 1)
      | .LoopEnd _ =>
        (match d with
         | 0 => some 0
         | d' + 1 => (firstBad r d').map (· + 1))
      | _ => (firstBad r d).map (· + 1) := by cases ins <;> rfl

theorem netDepth_cons (ins : Instr) (r : List Instr) (d : Nat) :
    netDepth (ins :: r) d =
      match ins with
      | .LoopBegin _ => netDepth r (d + 1)
      | .LoopEnd _ =>
        (match d with
         | 0 => netDepth r 0
         | d' + 1 => netDepth r d')
      | _ => netDepth r d := by cases ins <;> rfl

/-- A first unmatched closing bracket (`firstBad`) makes the scan fail at
its absolute position. -/
theorem scanBr_error_of_firstBad :
    ∀ (rest : List Instr) (i : Nat) (st : List Nat) (p : Nat),
      firstBad rest st.length = some p → scanBr rest i st = .error (i + p) := by
  intro rest
  induction rest with
  | nil => intro i st p hp; simp [firstBad] at hp
  | cons ins r ih =>
    intro i st p hp
    cases ins with
    | LoopBegin t =>
      simp only [firstBad_cons] at hp
      rcases Option.map_eq_some'.mp hp with ⟨p', hp', rfl⟩
      simp only [scanBr_cons]
      rw [ih (i + 1) (i :: st) p' (by simpa using hp')]
      congr 1
      omega
    | LoopEnd t =>
      cases st with
      | nil =>
        simp only [firstBad_cons, List.length_nil] at hp
        rcases Option.some.inj hp with rfl
        simp [scanBr_cons]
      | cons b st' =>
        simp only [firstBad_cons, List.length_cons] at hp
        rcases Option.map_eq_some'.mp hp with ⟨p', hp', rfl⟩
        simp only [scanBr_cons, ih (i + 1) st' p' hp']
        congr 1
        omega
    | Add x =>
      simp only [firstBad_cons] at hp
      rcases Option.map_eq_some'.mp hp with ⟨p', hp', rfl⟩
      simp only [scanBr_cons]
      rw [ih (i + 1) st p' hp']
      congr 1
      omega
    | Ptr x =>
      simp only [firstBad_cons] at hp
      rcases Option.map_eq_some'.mp hp with ⟨p', hp', rfl⟩
      simp only [scanBr_cons]
      rw [ih (i + 1) st p' hp']
      congr 1
      omega
    | Out =>
      simp only [firstBad_cons] at hp
      rcases Option.map_eq_some'.mp hp with ⟨p', hp', rfl⟩
      simp only [scanBr_cons]
      rw [ih (i + 1) st p' hp']
      congr 1
      omega
    | In =>
      simp only [firstBad_cons] at hp
      rcases Option.map_eq_some'.mp hp with ⟨p', hp', rfl⟩
      simp only [scanBr_cons]
      rw [ih (i + 1) st p' hp']
      congr 1
      omega

/-- With no unmatched closing bracket the scan succeeds. -/
theorem scanBr_ok_of_firstBad_none :
    ∀ (rest : List Instr) (i : Nat) (st : List Nat),
      firstBad rest st.length = none →
      ∃ pairs fin, scanBr rest i st = .ok (pairs, fin) := by
  intro rest
  induction rest with
  | nil => intro i st _; exact ⟨[], st, rfl⟩
  | cons ins r ih =>
    intro i st hp
    cases ins with
    | LoopBegin t =>
      simp only [firstBad_cons, Option.map_eq_none'] at hp
      rcases ih (i + 1) (i :: st) (by simpa using hp) with ⟨pairs, fin, hs⟩
      exact ⟨pairs, fin, by rw [scanBr_cons]; exact hs⟩
    | LoopEnd t =>
      cases st with
      | nil => simp [firstBad_cons] at hp
      | cons b st' =>
        simp only [firstBad_cons, List.length_cons, Option.map_eq_none'] at hp
        rcases ih (i + 1) st' hp with ⟨pairs, fin, hs⟩
        refine ⟨(b, i) :: pairs, fin, ?_⟩
        rw [scanBr_cons]
        simp only [hs]
    | Add x =>
      simp only [firstBad_cons, Option.map_eq_none'] at hp
      rcases ih (i + 1) st hp with ⟨pairs, fin, hs⟩
      exact ⟨pairs, fin, by rw [scanBr_cons]; exact hs⟩
    | Ptr x =>
      simp only [firstBad_cons, Option.map_eq_none'] at hp
      rcases ih (i + 1) st hp with ⟨pairs, fin, hs⟩
      exact ⟨pairs, fin, by rw [scanBr_cons]; exact hs⟩
    | Out =>
      simp only [firstBad_cons, Option.map_eq_none'] at hp
      rcases ih (i + 1) st hp with ⟨pairs, fin, hs⟩
      exact ⟨pairs, fin, by rw [scanBr_cons]; exact hs⟩
    | In =>
      simp only [firstBad_cons, Option.map_eq_none'] at hp
      rcases ih (i + 1) st hp with ⟨pairs, fin, hs⟩
      exact ⟨pairs, fin, by rw [scanBr_cons]; exact hs⟩

/-- On success, the final stack length is the pending-open count. -/
theorem scanBr_fin_length :
    ∀ (rest : List Instr) (i : Nat) (st : List Nat) (pairs : List (Nat × Nat)) (fin : List Nat),
      scanBr rest i st = .ok (pairs, fin) → fin.length = netDepth rest st.length := by
  intro rest
  induction rest with
  | nil =>
    intro i st pairs fin hs
    rw [scanBr_nil] at hs
    injection hs with h
    injection h with h1 h2
    subst h2
    rfl
  | cons ins r ih =>
    intro i st pairs fin hs
    cases ins with
    | LoopBegin t =>
      rw [scanBr_cons] at hs
      rw [netDepth_cons]
      simpa using ih (i + 1) (i :: st) pairs fin hs
    | LoopEnd t =>
      cases st with
      | nil => exact Except.noConfusion hs
      | cons b st' =>
        simp only [scanBr_cons] at hs
        rw [netDepth_cons]
        simp only [List.length_cons]
        cases hs' : scanBr r (i + 1) st' with
        | error j => rw [hs'] at hs; exact absurd hs (by simp)
        | ok pr =>
          obtain ⟨pairs', fin'⟩ := pr
          rw [hs'] at hs
          simp only at hs
          injection hs with h
          injection h with h1 h2
          subst h2
          exact ih (i + 1) st' pairs' fin' hs'
    | Add x =>
      rw [scanBr_cons] at hs
      rw [netDepth_cons]
      exact ih (i + 1) st pairs fin hs
    | Ptr x =>
      rw [scanBr_cons] at hs
      rw [netDepth_cons]
      exact ih (i + 1) st pairs fin hs
    | Out =>
      rw [scanBr_cons] at hs
      rw [netDepth_cons]
      exact ih (i + 1) st pairs fin hs
    | In =>
      rw [scanBr_cons] at hs
      rw [netDepth_cons]
      exact ih (i + 1) st pairs fin hs

theorem drop_cons_inv {prog r : List Instr} {ins : Instr} {i : Nat}
    (h : ins :: r = prog.drop i) :
    prog[i]? = some ins ∧ r = prog.drop (i + 1) ∧ i < prog.length := by
  have hlt : i < prog.length := by
    by_contra hge
    rw [List.drop_eq_nil_of_le (by omega)] at h
    exact List.noConfusion h
  rw [List.drop_eq_getElem_cons hlt] at h
  injection h with h1 h2
  refine ⟨?_, h2, hlt⟩
  rw [List.getElem?_eq_getElem hlt, ← h1]

/-- Master lemma about the bracket scan on success: every produced pair
points at a `LoopBegin`/`LoopEnd` with the begin strictly before the end,
all pair positions are distinct, pairs are disjoint or properly nested,
stacked positions end up as a pair begin or on the final stack, and every
bracket in the unscanned region is accounted for. -/
theorem scan_pairs (prog : List Instr) :
    ∀ (rest : List Instr) (i : Nat) (st : List Nat) (pairs : List (Nat × Nat)) (fin : List Nat),
      rest = prog.drop i →
      scanBr rest i st = .ok (pairs, fin) →
      (∀ s ∈ st, s < i ∧ ∃ ts, prog[s]? = some (.LoopBegin ts)) →
      st.Pairwise (· > ·) →
      ((∀ p ∈ pairs,
          (∃ tb, prog[p.1]? = some (.LoopBegin tb)) ∧
          (∃ te, prog[p.2]? = some (.LoopEnd te)) ∧
          p.1 < p.2 ∧ i ≤ p.2 ∧ (p.1 ∈ st ∨ i ≤ p.1)) ∧
        (pairs.map Prod.fst ++ pairs.map Prod.snd).Nodup ∧
        (∀ p ∈ pairs, ∀ q ∈ pairs, p ≠ q →
          p.2 < q.1 ∨ q.2 < p.1 ∨ (q.1 < p.1 ∧ p.2 < q.2) ∨ (p.1 < q.1 ∧ q.2 < p.2)) ∧
        (∀ s ∈ st, s ∈ pairs.map Prod.fst ∨ s ∈ fin) ∧
        (∀ p ts, i ≤ p → prog[p]? = some (.LoopBegin ts) → p ∈ pairs.map Prod.fst ∨ p ∈ fin) ∧
        (∀ p ts, i ≤ p → prog[p]? = some (.LoopEnd ts) → p ∈ pairs.map Prod.snd)) := by
  intro rest
  induction rest with
  | nil =>
    intro i st pairs fin hrest hs hst hsort
    rw [scanBr_nil] at hs
    injection hs with h
    injection h with h1 h2
    subst h1
    subst h2
    have hge : prog.length ≤ i := by
      by_contra hlt
      rw [List.drop_eq_getElem_cons (by omega)] at hrest
      exact List.noConfusion hrest
    refine ⟨by simp, by simp, by simp, fun s hsm => Or.inr hsm, ?_, ?_⟩
    · intro p ts hip hp
      have : p < prog.length := by
        rcases List.getElem?_eq_some.mp hp with ⟨h, _⟩
        exact h
      omega
    · intro p ts hip hp
      have : p < prog.length := by
        rcases List.getElem?_eq_some.mp hp with ⟨h, _⟩
        exact h
      omega
  | cons ins r ih =>
    intro i st pairs fin hrest hs hst hsort
    obtain ⟨hpi, hr, hlt⟩ := drop_cons_inv hrest
    cases ins
    case LoopBegin t =>
      rw [scanBr_cons] at hs
      have hst' : ∀ s ∈ i :: st, s < i + 1 ∧ ∃ ts, prog[s]? = some (.LoopBegin ts) := by
        intro s hsm
        rcases List.mem_cons.mp hsm with rfl | hsm
        · exact ⟨by omega, t, hpi⟩
        · exact ⟨by have := (hst s hsm).1; omega, (hst s hsm).2⟩
      have hsort' : (i :: st).Pairwise (· > ·) :=
        List.pairwise_cons.mpr ⟨fun s hsm => (hst s hsm).1, hsort⟩
      obtain ⟨hA, hB, hC, hD, hE1, hE2⟩ := ih (i + 1) (i :: st) pairs fin hr hs hst' hsort'
      refine ⟨?_, hB, hC, ?_, ?_, ?_⟩
      · intro p hp
        obtain ⟨h1, h2, h3, h4, h5⟩ := hA p hp
        refine ⟨h1, h2, h3, by omega, ?_⟩
        rcases h5 with h5 | h5
        · rcases List.mem_cons.mp h5 with rfl | h5
          · exact Or.inr (by omega)
          · exact Or.inl h5
        · exact Or.inr (by omega)
      · intro s hsm
        exact hD s (List.mem_cons_of_mem i hsm)
      · intro p ts hip hp
        rcases Nat.eq_or_lt_of_le hip with rfl | hip'
        · exact hD i (List.mem_cons_self i st)
        · exact hE1 p ts (by omega) hp
      · intro p ts hip hp
        rcases Nat.eq_or_lt_of_le hip with rfl | hip'
        · rw [hp] at hpi
          exact Instr.noConfusion (Option.some.inj hpi)
        · exact hE2 p ts (by omega) hp
    case LoopEnd t =>
      cases st with
      | nil =>
        simp only [scanBr_cons] at hs
        exact Except.noConfusion hs
      | cons b st2 =>
        simp only [scanBr_cons] at hs
        cases hs2 : scanBr r (i + 1) st2 with
        | error j =>
          rw [hs2] at hs
          exact Except.noConfusion hs
        | ok pr =>
          obtain ⟨pairs2, fin2⟩ := pr
          rw [hs2] at hs
          simp only at hs
          injection hs with h
          injection h with h1 h2
          subst h1
          rw [h2] at hs2
          clear fin2 h2
          obtain ⟨hb_lt, tb, hb_kind⟩ :
              b < i ∧ ∃ ts, prog[b]? = some (.LoopBegin ts) := by
            have := hst b (List.mem_cons_self b st2)
            exact ⟨this.1, this.2⟩
          have hb_gt : ∀ s ∈ st2, s < b := (List.pairwise_cons.mp hsort).1
          have hst2 : ∀ s ∈ st2, s < i + 1 ∧ ∃ ts, prog[s]? = some (.LoopBegin ts) := by
            intro s hsm
            have := hst s (List.mem_cons_of_mem b hsm)
            exact ⟨by omega, this.2⟩
          obtain ⟨hA, hB, hC, hD, hE1, hE2⟩ :=
            ih (i + 1) st2 pairs2 fin hr hs2 hst2 ((List.pairwise_cons.mp hsort).2)
          have hfst_bound : ∀ x ∈ pairs2.map Prod.fst, x ∈ st2 ∨ i + 1 ≤ x := by
            intro x hx
            rcases List.mem_map.mp hx with ⟨p, hp, rfl⟩
            exact (hA p hp).2.2.2.2
          have hsnd_bound : ∀ x ∈ pairs2.map Prod.snd, i + 1 ≤ x := by
            intro x hx
            rcases List.mem_map.mp hx with ⟨p, hp, rfl⟩
            exact (hA p hp).2.2.2.1
          have hb_notin_fst : b ∉ pairs2.map Prod.fst := by
            intro hmem
            rcases hfst_bound b hmem with hmem' | hmem'
            · exact absurd (hb_gt b hmem') (by omega)
            · omega
          have hb_notin_snd : b ∉ pairs2.map Prod.snd := by
            intro hmem
            have := hsnd_bound b hmem
            omega
          have hi_notin_fst : i ∉ pairs2.map Prod.fst := by
            intro hmem
            rcases hfst_bound i hmem with hmem' | hmem'
            · have := (hst i (List.mem_cons_of_mem b hmem')).1
              omega
            · omega
          have hi_notin_snd : i ∉ pairs2.map Prod.snd := by
            intro hmem
            have := hsnd_bound i hmem
            omega
          refine ⟨?_, ?_, ?_, ?_, ?_, ?_⟩
          · intro p hp
            rcases List.mem_cons.mp hp with rfl | hp
            · exact ⟨⟨tb, hb_kind⟩, ⟨t, hpi⟩, hb_lt, by omega,
                Or.inl (List.mem_cons_self b st2)⟩
            · obtain ⟨h1, h2, h3, h4, h5⟩ := hA p hp
              refine ⟨h1, h2, h3, by omega, ?_⟩
              rcases h5 with h5 | h5
              · exact Or.inl (List.mem_cons_of_mem b h5)
              · exact Or.inr (by omega)
          · simp only [List.map_cons]
            rw [show (b :: pairs2.map Prod.fst) ++ (i :: pairs2.map Prod.snd)
                = b :: (pairs2.map Prod.fst ++ i :: pairs2.map Prod.snd) from rfl]
            rw [List.nodup_cons]
            constructor
            · intro hmem
              rcases List.mem_append.mp hmem with hmem | hmem
              · exact hb_notin_fst hmem
              · rcases List.mem_cons.mp hmem with rfl | hmem
                · omega
                · exact hb_notin_snd hmem
            · rw [(List.perm_middle).nodup_iff, List.nodup_cons]
              constructor
              · intro hmem
                rcases List.mem_append.mp hmem with hmem | hmem
                · exact hi_notin_fst hmem
                · exact hi_notin_snd hmem
              · exact hB
          · intro p hp q hq hne
            rcases List.mem_cons.mp hp with rfl | hp <;>
              rcases List.mem_cons.mp hq with rfl | hq
            · exact absurd rfl hne
            · obtain ⟨_, _, _, hq4, hq5⟩ := hA q hq
              rcases hq5 with hq5 | hq5
              · exact Or.inr (Or.inr (Or.inl ⟨by have := hb_gt q.1 hq5; omega, by omega⟩))
              · exact Or.inl (by omega)
            · obtain ⟨_, _, _, hp4, hp5⟩ := hA p hp
              rcases hp5 with hp5 | hp5
              · exact Or.inr (Or.inr (Or.inr ⟨by have := hb_gt p.1 hp5; omega, by omega⟩))
              · exact Or.inr (Or.inl (by omega))
            · exact hC p hp q hq hne
          · intro s hsm
            rcases List.mem_cons.mp hsm with rfl | hsm
            · exact Or.inl (by simp)
            · rcases hD s hsm with hmem | hmem
              · exact Or.inl (by simp only [List.map_cons]; exact List.mem_cons_of_mem b hmem)
              · exact Or.inr hmem
          · intro p ts hip hp
            rcases Nat.eq_or_lt_of_le hip with rfl | hip'
            · rw [hp] at hpi
              exact Instr.noConfusion (Option.some.inj hpi)
            · rcases hE1 p ts (by omega) hp with hmem | hmem
              · exact Or.inl (by simp only [List.map_cons]; exact List.mem_cons_of_mem b hmem)
              · exact Or.inr hmem
          · intro p ts hip hp
            rcases Nat.eq_or_lt_of_le hip with rfl | hip'
            · exact List.mem_cons_self i (pairs2.map Prod.snd)
            · exact List.mem_cons_of_mem i (hE2 p ts (by omega) hp)
    all_goals {
      simp only [scanBr_cons] at hs
      have hst' : ∀ s ∈ st, s < i + 1 ∧ ∃ ts, prog[s]? = some (.LoopBegin ts) := by
        intro s hsm
        exact ⟨by have := (hst s hsm).1; omega, (hst s hsm).2⟩
      obtain ⟨hA, hB, hC, hD, hE1, hE2⟩ := ih (i + 1) st pairs fin hr hs hst' hsort
      refine ⟨?_, hB, hC, hD, ?_, ?_⟩
      · intro p hp
        obtain ⟨h1, h2, h3, h4, h5⟩ := hA p hp
        refine ⟨h1, h2, h3, by omega, ?_⟩
        rcases h5 with h5 | h5
        · exact Or.inl h5
        · exact Or.inr (by omega)
      · intro p ts hip hp
        rcases Nat.eq_or_lt_of_le hip with rfl | hip'
        · rw [hp] at hpi
          exact Instr.noConfusion (Option.some.inj hpi)
        · exact hE1 p ts (by omega) hp
      · intro p ts hip hp
        rcases Nat.eq_or_lt_of_le hip with rfl | hip'
        · rw [hp] at hpi
          exact Instr.noConfusion (Option.some.inj hpi)
        · exact hE2 p ts (by omega) hp
    }

/-- Positions not in any pair are untouched by the writes. -/
theorem writes_getElem_notin :
    ∀ (pairs : List (Nat × Nat)) (l : List Instr) (p : Nat),
      p ∉ pairs.map Prod.fst → p ∉ pairs.map Prod.snd →
      (writes pairs l)[p]? = l[p]? := by
  intro pairs
  induction pairs with
  | nil => intro l p _ _; rfl
  | cons pr rest ih =>
    intro l p hf hs
    obtain ⟨b, e⟩ := pr
    simp only [List.map_cons, List.mem_cons] at hf hs
    rw [writes, ih _ p (fun hm => hf (Or.inr hm)) (fun hm => hs (Or.inr hm)),
      List.getElem?_set_ne (fun he => hf (Or.inl he.symm)),
      List.getElem?_set_ne (fun he => hs (Or.inl he.symm))]

/-- Each pair's positions receive the linked bracket instructions. -/
theorem writes_getElem_pair :
    ∀ (pairs : List (Nat × Nat)) (l : List Instr),
      (pairs.map Prod.fst ++ pairs.map Prod.snd).Nodup →
      ∀ b e, (b, e) ∈ pairs → b < l.length → e < l.length → b ≠ e →
      (writes pairs l)[b]? = some (.LoopBegin e) ∧
      (writes pairs l)[e]? = some (.LoopEnd b) := by
  intro pairs
  induction pairs with
  | nil => intro l _ b e hmem; exact absurd hmem (List.not_mem_nil _)
  | cons pr rest ih =>
    intro l hnd b e hmem hb he hne
    obtain ⟨b0, e0⟩ := pr
    simp only [List.map_cons] at hnd
    rw [show (b0 :: rest.map Prod.fst) ++ (e0 :: rest.map Prod.snd)
        = b0 :: (rest.map Prod.fst ++ e0 :: rest.map Prod.snd) from rfl,
      List.nodup_cons] at hnd
    obtain ⟨hb0, hnd⟩ := hnd
    rw [(List.perm_middle).nodup_iff, List.nodup_cons] at hnd
    obtain ⟨he0, hnd⟩ := hnd
    have hb0f : b0 ∉ rest.map Prod.fst := fun hm => hb0 (List.mem_append.mpr (Or.inl hm))
    have hb0s : b0 ∉ rest.map Prod.snd := fun hm =>
      hb0 (List.mem_append.mpr (Or.inr (List.mem_cons_of_mem e0 hm)))
    have hb0e0 : b0 ≠ e0 := fun hm =>
      hb0 (List.mem_append.mpr (Or.inr (hm ▸ List.mem_cons_self e0 _)))
    have he0f : e0 ∉ rest.map Prod.fst := fun hm => he0 (List.mem_append.mpr (Or.inl hm))
    have he0s : e0 ∉ rest.map Prod.snd := fun hm => he0 (List.mem_append.mpr (Or.inr hm))
    rcases List.mem_cons.mp hmem with heq | hmem
    · injection heq with h1 h2
      subst h1
      subst h2
      rw [writes]
      constructor
      · rw [writes_getElem_notin rest _ b hb0f hb0s,
          List.getElem?_set_eq (by rw [List.length_set]; exact hb)]
      · rw [writes_getElem_notin rest _ e he0f he0s,
          List.getElem?_set_ne hne, List.getElem?_set_eq he]
    · rw [writes]
      exact ih _ hnd b e hmem (by rw [List.length_set, List.length_set]; exact hb)
        (by rw [List.length_set, List.length_set]; exact he) hne

/-- Inversion of a successful `parse` into the scan and the writes. -/
theorem parse_ok_pairs {src : List Char} {prog : List Instr}
    (h : parse src = .ok prog) :
    ∃ pairs, scanBr (coalesce (src.filterMap charToInstr)) 0 [] = .ok (pairs, []) ∧
      prog = writes pairs (coalesce (src.filterMap charToInstr)) := by
  rw [parse_eq_scan] at h
  cases hsc : scanBr (coalesce (src.filterMap charToInstr)) 0 [] with
  | error j => rw [hsc] at h; exact Except.noConfusion h
  | ok pr =>
    obtain ⟨pairs, fin⟩ := pr
    rw [hsc] at h
    cases fin with
    | nil =>
      simp only at h
      injection h with h1
      exact ⟨pairs, rfl, h1.symm⟩
    | cons f fs => simp only at h; exact Except.noConfusion h

/-- Inversion of a successful `parseUnopt` into the scan and the writes. -/
theorem parseUnopt_ok_pairs {src : List Char} {prog : List Instr}
    (h : parseUnopt src = .ok prog) :
    ∃ pairs, scanBr (src.filterMap charToInstr) 0 [] = .ok (pairs, []) ∧
      prog = writes pairs (src.filterMap charToInstr) := by
  rw [parseUnopt_eq_scan] at h
  cases hsc : scanBr (src.filterMap charToInstr) 0 [] with
  | error j => rw [hsc] at h; exact Except.noConfusion h
  | ok pr =>
    obtain ⟨pairs, fin⟩ := pr
    rw [hsc] at h
    cases fin with
    | nil =>
      simp only at h
      injection h with h1
      exact ⟨pairs, rfl, h1.symm⟩
    | cons f fs => simp only at h; exact Except.noConfusion h

/-- Bracket properties of a resolved program, given the scan and writes it
came from: symmetric targets and proper nesting. -/
theorem writes_bracket_props (L : List Instr) (pairs : List (Nat × Nat))
    (hsc : scanBr L 0 [] = .ok (pairs, [])) :
    (∀ p t, (writes pairs L)[p]? = some (Instr.LoopBegin t) →
      p < t ∧ (writes pairs L)[t]? = some (Instr.LoopEnd p)) ∧
    (∀ p t, (writes pairs L)[p]? = some (Instr.LoopEnd t) →
      t < p ∧ (writes pairs L)[t]? = some (Instr.LoopBegin p)) ∧
    (∀ p t q u, (writes pairs L)[p]? = some (Instr.LoopBegin t) →
      (writes pairs L)[q]? = some (Instr.LoopBegin u) → p < q → q < t → u < t) := by
  obtain ⟨hA, hB, hC, _, hE1, hE2⟩ :=
    scan_pairs L L 0 [] pairs [] (List.drop_zero L).symm hsc (by simp) (by simp)
  have hlen : ∀ q, q ∈ pairs → q.1 < L.length ∧ q.2 < L.length := by
    intro q hq
    obtain ⟨⟨tb, h1⟩, ⟨te, h2⟩, _, _, _⟩ := hA q hq
    exact ⟨(List.getElem?_eq_some.mp h1).1, (List.getElem?_eq_some.mp h2).1⟩
  have hW : ∀ q ∈ pairs, (writes pairs L)[q.1]? = some (.LoopBegin q.2) ∧
      (writes pairs L)[q.2]? = some (.LoopEnd q.1) := by
    intro q hq
    obtain ⟨hl1, hl2⟩ := hlen q hq
    obtain ⟨_, _, hlt, _, _⟩ := hA q hq
    exact writes_getElem_pair pairs L hB q.1 q.2 hq hl1 hl2 (by omega)
  have hinvB : ∀ p t, (writes pairs L)[p]? = some (.LoopBegin t) → (p, t) ∈ pairs := by
    intro p t hp
    by_cases hpf : p ∈ pairs.map Prod.fst
    · rcases List.mem_map.mp hpf with ⟨q, hq, hq1⟩
      have := (hW q hq).1
      rw [hq1, hp] at this
      rcases Option.some.inj this with h
      rcases Instr.LoopBegin.inj h with rfl
      exact hq1 ▸ hq
    · by_cases hps : p ∈ pairs.map Prod.snd
      · rcases List.mem_map.mp hps with ⟨q, hq, hq2⟩
        have := (hW q hq).2
        rw [hq2, hp] at this
        exact Instr.noConfusion (Option.some.inj this)
      · rw [writes_getElem_notin pairs L p hpf hps] at hp
        rcases hE1 p t (by omega) hp with hm | hm
        · exact absurd hm hpf
        · exact absurd hm (List.not_mem_nil p)
  have hinvE : ∀ p t, (writes pairs L)[p]? = some (.LoopEnd t) → (t, p) ∈ pairs := by
    intro p t hp
    by_cases hps : p ∈ pairs.map Prod.snd
    · rcases List.mem_map.mp hps with ⟨q, hq, hq2⟩
      have := (hW q hq).2
      rw [hq2, hp] at this
      rcases Option.some.inj this with h
      rcases Instr.LoopEnd.inj h with rfl
      exact hq2 ▸ hq
    · by_cases hpf : p ∈ pairs.map Prod.fst
      · rcases List.mem_map.mp hpf with ⟨q, hq, hq1⟩
        have := (hW q hq).1
        rw [hq1, hp] at this
        exact Instr.noConfusion (Option.some.inj this)
      · rw [writes_getElem_notin pairs L p hpf hps] at hp
        have := hE2 p t (by omega) hp
        exact absurd this hps
  refine ⟨?_, ?_, ?_⟩
  · intro p t hp
    have hq := hinvB p t hp
    obtain ⟨_, _, hlt, _, _⟩ := hA (p, t) hq
    exact ⟨hlt, (hW (p, t) hq).2⟩
  · intro p t hp
    have hq := hinvE p t hp
    obtain ⟨_, _, hlt, _, _⟩ := hA (t, p) hq
    exact ⟨hlt, (hW (t, p) hq).1⟩
  · intro p t q u hp hq hpq hqt
    have hm1 := hinvB p t hp
    have hm2 := hinvB q u hq
    have hne : (p, t) ≠ (q, u) := by
      intro he
      injection he with he1
      omega
    obtain ⟨_, _, hlt1, _, _⟩ := hA (p, t) hm1
    obtain ⟨_, _, hlt2, _, _⟩ := hA (q, u) hm2
    rcases hC (p, t) hm1 (q, u) hm2 hne with h | h | h | h
    · simp only at h; omega
    · simp only at h; omega
    · simp only at h; omega
    · simp only at h; omega

/-! ### Coalescing of pure arithmetic runs -/

theorem filterMap_plusminus :
    ∀ cs : List Char, (∀ c ∈ cs, c = '+' ∨ c = '-') →
      cs.filterMap charToInstr
        = cs.map (fun c => Instr.Add (if c = '+' then 1 else 255)) := by
  intro cs
  induction cs with
  | nil => intro _; rfl
  | cons c cs ih =>
    intro h
    rw [List.filterMap_cons, List.map_cons,
      ih (fun d hd => h d (List.mem_cons_of_mem c hd))]
    rcases h c (List.mem_cons_self c cs) with rfl | rfl <;> rfl

theorem filterMap_moves :
    ∀ cs : List Char, (∀ c ∈ cs, c = '>' ∨ c = '<') →
      cs.filterMap charToInstr
        = cs.map (fun c => Instr.Ptr (if c = '>' then 1 else -1)) := by
  intro cs
  induction cs with
  | nil => intro _; rfl
  | cons c cs ih =>
    intro h
    rw [List.filterMap_cons, List.map_cons,
      ih (fun d hd => h d (List.mem_cons_of_mem c hd))]
    rcases h c (List.mem_cons_self c cs) with rfl | rfl <;> rfl

theorem coalesceGo_adds :
    ∀ (ds : List Nat) (a : Nat), a < 256 →
      coalesceGo (Instr.Add a) (ds.map Instr.Add) = [Instr.Add ((a + ds.sum) % 256)] := by
  intro ds
  induction ds with
  | nil =>
    intro a ha
    rw [List.map_nil, coalesceGo, List.sum_nil, Nat.add_zero, Nat.mod_eq_of_lt ha]
  | cons d ds ih =>
    intro a ha
    rw [List.map_cons]
    rw [show coalesceGo (Instr.Add a) (Instr.Add d :: ds.map Instr.Add)
        = coalesceGo (Instr.Add ((a + d) % 256)) (ds.map Instr.Add) from rfl]
    rw [ih ((a + d) % 256) (Nat.mod_lt _ (by omega)), List.sum_cons]
    congr 1
    rw [Nat.mod_add_mod]
    congr 1
    omega

theorem coalesceGo_ptrs :
    ∀ (ds : List Int) (a : Int),
      coalesceGo (Instr.Ptr a) (ds.map Instr.Ptr) = [Instr.Ptr (a + ds.sum)] := by
  intro ds
  induction ds with
  | nil =>
    intro a
    rw [List.map_nil, coalesceGo, List.sum_nil, Int.add_zero]
  | cons d ds ih =>
    intro a
    rw [List.map_cons]
    rw [show coalesceGo (Instr.Ptr a) (Instr.Ptr d :: ds.map Instr.Ptr)
        = coalesceGo (Instr.Ptr (a + d)) (ds.map Instr.Ptr) from rfl]
    rw [ih (a + d), List.sum_cons]
    congr 2
    omega

/-- `parse` of a source whose coalesced stream is one non-bracket
instruction. -/
theorem parse_single {cs : List Char} {ins : Instr}
    (hnb : ∀ t, ins ≠ .LoopBegin t ∧ ins ≠ .LoopEnd t)
    (hco : coalesce (cs.filterMap charToInstr) = [ins]) : parse cs = .ok [ins] := by
  rw [parse_eq_scan, hco]
  cases ins with
  | LoopBegin t => exact absurd rfl (hnb t).1
  | LoopEnd t => exact absurd rfl (hnb t).2
  | Add x => rfl
  | Ptr x => rfl
  | Out => rfl
  | In => rfl

theorem sum_plusminus :
    ∀ cs : List Char, (∀ c ∈ cs, c = '+' ∨ c = '-') →
      (cs.map (fun c => if c = '+' then (1 : Nat) else 255)).sum
        = cs.count '+' + 255 * cs.count '-' := by
  intro cs
  induction cs with
  | nil => intro _; rfl
  | cons c cs ih =>
    intro h
    rw [List.map_cons, List.sum_cons, ih (fun d hd => h d (List.mem_cons_of_mem c hd))]
    rcases h c (List.mem_cons_self c cs) with rfl | rfl
    · rw [if_pos rfl, List.count_cons_self, List.count_cons_of_ne (by decide)]
      omega
    · rw [if_neg (by decide), List.count_cons_of_ne (by decide), List.count_cons_self]
      omega

theorem sum_moves :
    ∀ cs : List Char, (∀ c ∈ cs, c = '>' ∨ c = '<') →
      (cs.map (fun c => if c = '>' then (1 : Int) else -1)).sum
        = (cs.count '>' : Int) - cs.count '<' := by
  intro cs
  induction cs with
  | nil => intro _; rfl
  | cons c cs ih =>
    intro h
    rw [List.map_cons, List.sum_cons, ih (fun d hd => h d (List.mem_cons_of_mem c hd))]
    rcases h c (List.mem_cons_self c cs) with rfl | rfl
    · rw [if_pos rfl, List.count_cons_self, List.count_cons_of_ne (by decide)]
      push_cast
      omega
    · rw [if_neg (by decide), List.count_cons_of_ne (by decide), List.count_cons_self]
      push_cast
      omega

/-! ### Claim theorems on the translator -/

/-- C4 (amended): when the bracket scan over the **coalesced** instruction
stream encounters a closing bracket with no pending opening bracket
(`firstBad` finds position `j` there), `parse` fails with
`unmatchedClosing j`, the 0-indexed position of that bracket in the
coalesced stream; when no such bracket exists and `n ≠ 0` opening brackets
are pending at the end of the scan, `parse` fails with
`unmatchedOpening n` where `n` is the stack depth; a lone `]` reports
position 0 and a lone `[` reports count 1. -/
theorem c4_unmatched_bracket_errors (src : List Char) :
    (∀ j, firstBad (coalesce (src.filterMap charToInstr)) 0 = some j →
      parse src = .error (.unmatchedClosing j)) ∧
    (firstBad (coalesce (src.filterMap charToInstr)) 0 = none →
      netDepth (coalesce (src.filterMap charToInstr)) 0 ≠ 0 →
      parse src = .error
        (.unmatchedOpening (netDepth (coalesce (src.filterMap charToInstr)) 0))) ∧
    parse [']'] = .error (.unmatchedClosing 0) ∧
    parse ['['] = .error (.unmatchedOpening 1) := by
  refine ⟨?_, ?_, rfl, rfl⟩
  · intro j hj
    have hs := scanBr_error_of_firstBad (coalesce (src.filterMap charToInstr)) 0 [] j hj
    rw [Nat.zero_add] at hs
    rw [parse_eq_scan, hs]
  · intro h0 hne
    rcases scanBr_ok_of_firstBad_none (coalesce (src.filterMap charToInstr)) 0 [] h0
      with ⟨pairs, fin, hs⟩
    have hlen := scanBr_fin_length (coalesce (src.filterMap charToInstr)) 0 [] pairs fin hs
    rw [List.length_nil] at hlen
    cases fin with
    | nil => rw [List.length_nil] at hlen; exact absurd hlen.symm hne
    | cons f fs =>
      rw [parse_eq_scan, hs]
      simp only
      rw [hlen]

/-- C4 counterexample: for source `++]` the code reports the unmatched
closing bracket at position 1 (its index in the coalesced stream), while
the claim's "filtered instruction stream" places that bracket at index 2,
as the filtered stream is `[Add 1, Add 1, LoopEnd 0]`. -/
theorem c4_counterexample :
    parse ['+', '+', ']'] = .error (.unmatchedClosing 1) ∧
    ['+', '+', ']'].filterMap charToInstr
      = [Instr.Add 1, Instr.Add 1, Instr.LoopEnd 0] :=
  ⟨rfl, rfl⟩

/-- C4 witness: the amended claim applied to the lone-bracket sources. -/
theorem c4_witness :
    parse [']'] = .error (.unmatchedClosing 0) ∧
    parse ['['] = .error (.unmatchedOpening 1) :=
  ⟨(c4_unmatched_bracket_errors [']']).1 0 rfl,
    by
      have h := (c4_unmatched_bracket_errors ['[']).2.1 rfl (by decide)
      exact h⟩

/-- C5: every program returned by `parse` satisfies the bracket invariant:
a `LoopBegin` at `p` with target `t` has `p < t` and the instruction at `t`
is `LoopEnd p` (and symmetrically), the matching is unique, and pairs are
properly nested (a `LoopBegin` strictly inside a pair closes strictly
inside it). -/
theorem c5_bracket_invariant {src : List Char} {prog : List Instr}
    (h : parse src = .ok prog) :
    (∀ p t : Nat, prog[p]? = some (Instr.LoopBegin t) →
      p < t ∧ prog[t]? = some (Instr.LoopEnd p)) ∧
    (∀ p t : Nat, prog[p]? = some (Instr.LoopEnd t) →
      t < p ∧ prog[t]? = some (Instr.LoopBegin p)) ∧
    (∀ p q t : Nat, prog[p]? = some (Instr.LoopBegin t) →
      prog[q]? = some (Instr.LoopBegin t) → p = q) ∧
    (∀ p t q u : Nat, prog[p]? = some (Instr.LoopBegin t) →
      prog[q]? = some (Instr.LoopBegin u) → p < q → q < t → u < t) := by
  obtain ⟨pairs, hsc, rfl⟩ := parse_ok_pairs h
  obtain ⟨h1, h2, h3⟩ := writes_bracket_props _ pairs hsc
  refine ⟨h1, h2, ?_, h3⟩
  intro p q t hp hq
  have e1 := (h1 p t hp).2
  have e2 := (h1 q t hq).2
  rw [e1] at e2
  rcases Option.some.inj e2 with h
  exact Instr.LoopEnd.inj h

/-- C5 witness: the invariant on the parsed program for `[]`. -/
theorem c5_witness :
    0 < 1 ∧ [Instr.LoopBegin 1, Instr.LoopEnd 0][1]? = some (Instr.LoopEnd 0) :=
  (c5_bracket_invariant
    (show parse ['[', ']'] = .ok [Instr.LoopBegin 1, Instr.LoopEnd 0] from rfl)).1 0 1 rfl

/-- C6 (amended): for every **nonempty** source of only `+`/`-` characters,
`parse` yields the single instruction `Add` of the net count modulo 256,
and for every nonempty source of only `>`/`<` it yields the single `Move`
(`Ptr`) instruction of the signed net sum. -/
theorem c6_coalesced_single (cs : List Char) (hne : cs ≠ []) :
    ((∀ c ∈ cs, c = '+' ∨ c = '-') →
      parse cs = .ok [Instr.Add ((((cs.count '+' : Int) - cs.count '-') % 256).toNat)]) ∧
    ((∀ c ∈ cs, c = '>' ∨ c = '<') →
      parse cs = .ok [Instr.Ptr ((cs.count '>' : Int) - cs.count '<')]) := by
  constructor
  · intro h
    cases cs with
    | nil => exact absurd rfl hne
    | cons c cs =>
      have hfm := filterMap_plusminus (c :: cs) h
      refine parse_single (fun t => by constructor <;> exact fun hx => Instr.noConfusion hx) ?_
      rw [hfm, List.map_cons, coalesce]
      have hmm : (cs.map (fun c => Instr.Add (if c = '+' then 1 else 255)))
          = (cs.map (fun c => if c = '+' then (1 : Nat) else 255)).map Instr.Add := by
        rw [List.map_map]
        rfl
      rw [hmm, coalesceGo_adds _ _ (by rcases h c (List.mem_cons_self c cs) with rfl | rfl
          <;> simp)]
      congr 1
      congr 1
      have hsum := sum_plusminus cs (fun d hd => h d (List.mem_cons_of_mem c hd))
      rw [hsum]
      have hcnt1 := List.count_cons '+' c cs
      have hcnt2 := List.count_cons '-' c cs
      rcases h c (List.mem_cons_self c cs) with rfl | rfl
      · rw [if_pos rfl, List.count_cons_self, List.count_cons_of_ne (by decide)]
        omega
      · rw [if_neg (by decide), List.count_cons_of_ne (by decide), List.count_cons_self]
        omega
  · intro h
    cases cs with
    | nil => exact absurd rfl hne
    | cons c cs =>
      have hfm := filterMap_moves (c :: cs) h
      refine parse_single (fun t => by constructor <;> exact fun hx => Instr.noConfusion hx) ?_
      rw [hfm, List.map_cons, coalesce]
      have hmm : (cs.map (fun c => Instr.Ptr (if c = '>' then 1 else -1)))
          = (cs.map (fun c => if c = '>' then (1 : Int) else -1)).map Instr.Ptr := by
        rw [List.map_map]
        rfl
      rw [hmm, coalesceGo_ptrs]
      congr 2
      have hsum := sum_moves cs (fun d hd => h d (List.mem_cons_of_mem c hd))
      rw [hsum]
      rcases h c (List.mem_cons_self c cs) with rfl | rfl
      · rw [if_pos rfl, List.count_cons_self, List.count_cons_of_ne (by decide)]
        push_cast
        omega
      · rw [if_neg (by decide), List.count_cons_of_ne (by decide), List.count_cons_self]
        push_cast
        omega

/-- C6 counterexample: the empty source consists only of `+`/`-` (and only
of `>`/`<`) vacuously, yet `parse` yields the empty program rather than a
single `Add` (or `Move`) instruction. -/
theorem c6_counterexample :
    parse [] = .ok ([] : List Instr) ∧
    (Except.ok ([] : List Instr) : Except SynErr (List Instr))
      ≠ .ok [Instr.Add 0] :=
  ⟨rfl, fun h => List.noConfusion (Except.ok.inj h)⟩

/-- C6 witness: the amended claim applied to `+++` and `><<`. -/
theorem c6_witness :
    parse ['+', '+', '+'] = .ok [Instr.Add 3] ∧
    parse ['>', '<', '<'] = .ok [Instr.Ptr (-1)] :=
  ⟨(c6_coalesced_single ['+', '+', '+'] (by decide)).1 (by decide),
    (c6_coalesced_single ['>', '<', '<'] (by decide)).2 (by decide)⟩

/-! ### One-step lemmas for the execution engine -/

theorem step_none {prog : List Instr} {s : BfState} (h : prog[s.pc]? = none) :
    step prog s = .halt := by
  rw [step, h]

theorem step_add {prog : List Instr} {s : BfState} {x : Nat}
    (h : prog[s.pc]? = some (.Add x)) (hp : s.ptr < s.mem.length) :
    step prog s = .next { s with mem := s.mem.set s.ptr ((s.mem.getD s.ptr 0 + x) % 256),
                                 pc := s.pc + 1 } := by
  rw [step, h]
  simp only [if_pos hp]

theorem step_add_panic {prog : List Instr} {s : BfState} {x : Nat}
    (h : prog[s.pc]? = some (.Add x)) (hp : ¬ s.ptr < s.mem.length) :
    step prog s = .panic := by
  rw [step, h]
  simp only [if_neg hp]

theorem step_ptr_nonneg {prog : List Instr} {s : BfState} {x : Int}
    (h : prog[s.pc]? = some (.Ptr x)) (hx : 0 ≤ x) (hov : s.ptr + x.toNat ≤ USIZE_MAX) :
    step prog s = .next { s with ptr := s.ptr + x.toNat,
                                 mem := if s.mem.length ≤ s.ptr + x.toNat
                                        then s.mem ++ [0] else s.mem,
                                 pc := s.pc + 1 } := by
  rw [step, h]
  simp only [if_pos hx, if_pos hov]

theorem step_ptr_overflow {prog : List Instr} {s : BfState} {x : Int}
    (h : prog[s.pc]? = some (.Ptr x)) (hx : 0 ≤ x) (hov : ¬ s.ptr + x.toNat ≤ USIZE_MAX) :
    step prog s = .err .ptrOverflow := by
  rw [step, h]
  simp only [if_pos hx, if_neg hov]

theorem step_ptr_neg {prog : List Instr} {s : BfState} {x : Int}
    (h : prog[s.pc]? = some (.Ptr x)) (hx : ¬ 0 ≤ x) (hun : (-x).toNat ≤ s.ptr) :
    step prog s = .next { s with ptr := s.ptr - (-x).toNat,
                                 mem := if s.mem.length ≤ s.ptr - (-x).toNat
                                        then s.mem ++ [0] else s.mem,
                                 pc := s.pc + 1 } := by
  rw [step, h]
  simp only [if_neg hx, if_pos hun]

theorem step_ptr_underflow {prog : List Instr} {s : BfState} {x : Int}
    (h : prog[s.pc]? = some (.Ptr x)) (hx : ¬ 0 ≤ x) (hun : ¬ (-x).toNat ≤ s.ptr) :
    step prog s = .err .ptrUnderflow := by
  rw [step, h]
  simp only [if_neg hx, if_neg hun]

theorem step_loopbegin {prog : List Instr} {s : BfState} {t : Nat}
    (h : prog[s.pc]? = some (.LoopBegin t)) (hp : s.ptr < s.mem.length) :
    step prog s = .next { s with pc := (if s.mem.getD s.ptr 0 = 0 then t else s.pc) + 1 } := by
  rw [step, h]
  simp only [if_pos hp]

theorem step_loopend {prog : List Instr} {s : BfState} {t : Nat}
    (h : prog[s.pc]? = some (.LoopEnd t)) (hp : s.ptr < s.mem.length) :
    step prog s = .next { s with pc := (if s.mem.getD s.ptr 0 ≠ 0 then t else s.pc) + 1 } := by
  rw [step, h]
  simp only [if_pos hp]

theorem step_out {prog : List Instr} {s : BfState}
    (h : prog[s.pc]? = some .Out) (hp : s.ptr < s.mem.length) :
    step prog s = .next { s with output := s.output ++ utf8Encode (s.mem.getD s.ptr 0),
                                 pc := s.pc + 1 } := by
  rw [step, h]
  simp only [if_pos hp]

theorem step_in_eof {prog : List Instr} {s : BfState}
    (h : prog[s.pc]? = some .In) (hp : s.ptr < s.mem.length) (hin : s.input = []) :
    step prog s = .next { s with mem := s.mem.set s.ptr 0, pc := s.pc + 1 } := by
  rw [step, h, hin]
  simp only [if_pos hp]

theorem step_in_byte {prog : List Instr} {s : BfState} {b : Nat} {rest : List InEvent}
    (h : prog[s.pc]? = some .In) (hp : s.ptr < s.mem.length)
    (hin : s.input = .byte b :: rest) :
    step prog s = .next { s with mem := s.mem.set s.ptr (b % 256), input := rest,
                                 pc := s.pc + 1 } := by
  rw [step, h, hin]
  simp only [if_pos hp]

theorem step_in_fail {prog : List Instr} {s : BfState} {rest : List InEvent}
    (h : prog[s.pc]? = some .In) (hin : s.input = .fail :: rest) :
    step prog s = .err .readError := by
  rw [step, h, hin]

/-- A fetched instruction means the step is not the loop exit. -/
theorem step_panic_of_oob {prog : List Instr} {s : BfState} {ins : Instr}
    (h : prog[s.pc]? = some ins) (hp : ¬ s.ptr < s.mem.length)
    (hnp : ∀ x : Int, ins ≠ .Ptr x) (hnf : ∀ rest, s.input ≠ .fail :: rest) :
    step prog s = .panic := by
  rw [step, h]
  cases ins with
  | Add x => simp only [if_neg hp]
  | Ptr x => exact absurd rfl (hnp x)
  | LoopBegin t => simp only [if_neg hp]
  | LoopEnd t => simp only [if_neg hp]
  | Out => simp only [if_neg hp]
  | In =>
    cases hin : s.input with
    | nil => simp only [if_neg hp]
    | cons ev rest =>
      cases ev with
      | byte b => simp only [if_neg hp]
      | fail => exact absurd hin (hnf rest)

theorem step_ne_halt {prog : List Instr} {s : BfState} {ins : Instr}
    (h : prog[s.pc]? = some ins) : step prog s ≠ .halt := by
  cases ins with
  | Add x =>
    by_cases hp : s.ptr < s.mem.length
    · rw [step_add h hp]; simp
    · rw [step_add_panic h hp]; simp
  | Ptr x =>
    by_cases hx : 0 ≤ x
    · by_cases hov : s.ptr + x.toNat ≤ USIZE_MAX
      · rw [step_ptr_nonneg h hx hov]; simp
      · rw [step_ptr_overflow h hx hov]; simp
    · by_cases hun : (-x).toNat ≤ s.ptr
      · rw [step_ptr_neg h hx hun]; simp
      · rw [step_ptr_underflow h hx hun]; simp
  | LoopBegin t =>
    by_cases hp : s.ptr < s.mem.length
    · rw [step_loopbegin h hp]; simp
    · rw [step, h]; simp only [if_neg hp]; simp
  | LoopEnd t =>
    by_cases hp : s.ptr < s.mem.length
    · rw [step_loopend h hp]; simp
    · rw [step, h]; simp only [if_neg hp]; simp
  | Out =>
    by_cases hp : s.ptr < s.mem.length
    · rw [step_out h hp]; simp
    · rw [step, h]; simp only [if_neg hp]; simp
  | In =>
    cases hin : s.input with
    | nil =>
      by_cases hp : s.ptr < s.mem.length
      · rw [step_in_eof h hp hin]; simp
      · rw [step, h, hin]; simp only [if_neg hp]; simp
    | cons ev rest =>
      cases ev with
      | byte b =>
        by_cases hp : s.ptr < s.mem.length
        · rw [step_in_byte h hp hin]; simp
        · rw [step, h, hin]; simp only [if_neg hp]; simp
      | fail => rw [step_in_fail h hin]; simp

theorem runFuel_succ (prog : List Instr) (n : Nat) (s : BfState) :
    runFuel prog (n + 1) s =
      match step prog s with
      | .halt => .ok s.output
      | .err e => .err e s.output
      | .panic => .panic s.output
      | .next s1 => runFuel prog n s1 := rfl

theorem iterN_succ (prog : List Instr) (k : Nat) (s : BfState) :
    iterN prog (k + 1) s =
      match step prog s with
      | .next s1 => iterN prog k s1
      | _ => none := rfl

theorem runFuel_ok_cases {prog : List Instr} {n : Nat} {s : BfState} {out : List Nat}
    (h : runFuel prog n s = .ok out) :
    1 ≤ n ∧ ((step prog s = .halt ∧ out = s.output) ∨
      ∃ s1, step prog s = .next s1 ∧ runFuel prog (n - 1) s1 = .ok out) := by
  cases n with
  | zero => exact absurd h (by rw [runFuel]; exact fun hx => RunOutcome.noConfusion hx)
  | succ m =>
    refine ⟨by omega, ?_⟩
    rw [runFuel_succ] at h
    cases hst : step prog s with
    | halt =>
      rw [hst] at h
      simp only at h
      injection h with h1
      exact Or.inl ⟨rfl, h1.symm⟩
    | err e => rw [hst] at h; exact absurd h (by simp)
    | panic => rw [hst] at h; exact absurd h (by simp)
    | next s1 =>
      rw [hst] at h
      exact Or.inr ⟨s1, rfl, by simpa using h⟩

theorem iterN_next {prog : List Instr} {s s1 : BfState} {k : Nat}
    (h : step prog s = .next s1) : iterN prog (k + 1) s = iterN prog k s1 := by
  rw [iterN_succ, h]

theorem iterN_comp {prog : List Instr} :
    ∀ (a : Nat) {s s' : BfState}, iterN prog a s = some s' →
      ∀ b, iterN prog (a + b) s = iterN prog b s' := by
  intro a
  induction a with
  | zero =>
    intro s s' h b
    rw [iterN] at h
    rcases Option.some.inj h with rfl
    rw [Nat.zero_add]
  | succ m ih =>
    intro s s' h b
    rw [iterN_succ] at h
    cases hst : step prog s with
    | next s1 =>
      rw [hst] at h
      simp only at h
      rw [show m + 1 + b = (m + b) + 1 from by omega, iterN_next hst]
      exact ih h b
    | halt => rw [hst] at h; exact absurd h (by simp)
    | err e => rw [hst] at h; exact absurd h (by simp)
    | panic => rw [hst] at h; exact absurd h (by simp)

/-- A continuing step either post-increments the program counter from
where it was, or jumps to a bracket target and then post-increments. -/
theorem step_next_pc {prog : List Instr} {s s1 : BfState}
    (h : step prog s = .next s1) :
    s1.pc = s.pc + 1 ∨
      ∃ t, (prog[s.pc]? = some (Instr.LoopBegin t) ∨ prog[s.pc]? = some (Instr.LoopEnd t)) ∧
        s1.pc = t + 1 := by
  cases hfetch : prog[s.pc]? with
  | none => rw [step_none hfetch] at h; exact StepResult.noConfusion h
  | some ins =>
    cases ins with
    | Add x =>
      by_cases hp : s.ptr < s.mem.length
      · rw [step_add hfetch hp] at h
        injection h with h1
        exact Or.inl (by rw [← h1])
      · rw [step_add_panic hfetch hp] at h
        exact StepResult.noConfusion h
    | Ptr x =>
      by_cases hx : 0 ≤ x
      · by_cases hov : s.ptr + x.toNat ≤ USIZE_MAX
        · rw [step_ptr_nonneg hfetch hx hov] at h
          injection h with h1
          exact Or.inl (by rw [← h1])
        · rw [step_ptr_overflow hfetch hx hov] at h
          exact StepResult.noConfusion h
      · by_cases hun : (-x).toNat ≤ s.ptr
        · rw [step_ptr_neg hfetch hx hun] at h
          injection h with h1
          exact Or.inl (by rw [← h1])
        · rw [step_ptr_underflow hfetch hx hun] at h
          exact StepResult.noConfusion h
    | LoopBegin t =>
      by_cases hp : s.ptr < s.mem.length
      · rw [step_loopbegin hfetch hp] at h
        injection h with h1
        by_cases hc : s.mem.getD s.ptr 0 = 0
        · refine Or.inr ⟨t, Or.inl rfl, ?_⟩
          rw [← h1]
          simp only [if_pos hc]
        · refine Or.inl ?_
          rw [← h1]
          simp only [if_neg hc]
      · rw [step, hfetch] at h
        simp only [if_neg hp] at h
        exact StepResult.noConfusion h
    | LoopEnd t =>
      by_cases hp : s.ptr < s.mem.length
      · rw [step_loopend hfetch hp] at h
        injection h with h1
        by_cases hc : s.mem.getD s.ptr 0 ≠ 0
        · refine Or.inr ⟨t, Or.inr rfl, ?_⟩
          rw [← h1]
          simp only [if_pos hc]
        · refine Or.inl ?_
          rw [← h1]
          simp only [if_neg hc]
      · rw [step, hfetch] at h
        simp only [if_neg hp] at h
        exact StepResult.noConfusion h
    | Out =>
      by_cases hp : s.ptr < s.mem.length
      · rw [step_out hfetch hp] at h
        injection h with h1
        exact Or.inl (by rw [← h1])
      · rw [step, hfetch] at h
        simp only [if_neg hp] at h
        exact StepResult.noConfusion h
    | In =>
      cases hin : s.input with
      | nil =>
        by_cases hp : s.ptr < s.mem.length
        · rw [step_in_eof hfetch hp hin] at h
          injection h with h1
          exact Or.inl (by rw [← h1])
        · rw [step, hfetch, hin] at h
          simp only [if_neg hp] at h
          exact StepResult.noConfusion h
      | cons ev rest =>
        cases ev with
        | byte b =>
          by_cases hp : s.ptr < s.mem.length
          · rw [step_in_byte hfetch hp hin] at h
            injection h with h1
            exact Or.inl (by rw [← h1])
          · rw [step, hfetch, hin] at h
            simp only [if_neg hp] at h
            exact StepResult.noConfusion h
        | fail =>
          rw [step_in_fail hfetch hin] at h
          exact StepResult.noConfusion h

/-- Bracket targets of a parsed program are in range. -/
theorem parse_targets_lt {src : List Char} {prog : List Instr}
    (h : parse src = .ok prog) :
    ∀ p t : Nat,
      prog[p]? = some (Instr.LoopBegin t) ∨ prog[p]? = some (Instr.LoopEnd t) →
      t < prog.length := by
  obtain ⟨pairs, hsc, rfl⟩ := parse_ok_pairs h
  obtain ⟨h1, h2, _⟩ := writes_bracket_props _ pairs hsc
  intro p t hp
  rcases hp with hp | hp
  · exact (List.getElem?_eq_some.mp (h1 p t hp).2).1
  · exact (List.getElem?_eq_some.mp (h2 p t hp).2).1

/-- A successful run reaches a state whose program counter equals the
program length, provided all jump targets are in range. -/
theorem runFuel_ok_dir1 {prog : List Instr}
    (htarget : ∀ p t : Nat,
      prog[p]? = some (Instr.LoopBegin t) ∨ prog[p]? = some (Instr.LoopEnd t) →
      t < prog.length) :
    ∀ (fuel : Nat) (s : BfState) (out : List Nat), s.pc ≤ prog.length →
      runFuel prog fuel s = .ok out →
      ∃ k s', k < fuel ∧ iterN prog k s = some s' ∧ s'.pc = prog.length ∧
        out = s'.output := by
  intro fuel
  induction fuel with
  | zero =>
    intro s out _ h
    exact absurd h (by rw [runFuel]; exact fun hx => RunOutcome.noConfusion hx)
  | succ f ih =>
    intro s out hpc h
    rcases (runFuel_ok_cases h).2 with ⟨hhalt, hout⟩ | ⟨s1, hstep, hrun⟩
    · have hnone : prog[s.pc]? = none := by
        cases hfetch : prog[s.pc]? with
        | none => rfl
        | some ins => exact absurd hhalt (step_ne_halt hfetch)
      have hge : prog.length ≤ s.pc := List.getElem?_eq_none_iff.mp hnone
      exact ⟨0, s, by omega, rfl, by omega, hout⟩
    · have hlt : s.pc < prog.length := by
        by_contra hge
        have : prog[s.pc]? = none := List.getElem?_eq_none (by omega)
        rw [step_none this] at hstep
        exact StepResult.noConfusion hstep
      have hpc1 : s1.pc ≤ prog.length := by
        rcases step_next_pc hstep with h1 | ⟨t, ht, h1⟩
        · omega
        · have := htarget s.pc t ht
          omega
      rcases ih s1 out hpc1 (by simpa using hrun) with ⟨k, s', hk, hit, hpcs, hout⟩
      exact ⟨k + 1, s', by omega, by rw [iterN_next hstep]; exact hit, hpcs, hout⟩

/-- Conversely, reaching the program length makes the run return
successfully with the output accumulated there. -/
theorem runFuel_ok_dir2 {prog : List Instr} :
    ∀ (k : Nat) (s s' : BfState) (fuel : Nat), iterN prog k s = some s' →
      s'.pc = prog.length → k < fuel → runFuel prog fuel s = .ok s'.output := by
  intro k
  induction k with
  | zero =>
    intro s s' fuel hit hpc hk
    rw [iterN] at hit
    rcases Option.some.inj hit with rfl
    cases fuel with
    | zero => omega
    | succ f =>
      rw [runFuel_succ, step_none (List.getElem?_eq_none (by omega))]
  | succ m ih =>
    intro s s' fuel hit hpc hk
    rw [iterN_succ] at hit
    cases hst : step prog s with
    | next s1 =>
      rw [hst] at hit
      simp only at hit
      cases fuel with
      | zero => omega
      | succ f =>
        rw [runFuel_succ, hst]
        exact ih s1 s' f hit hpc (by omega)
    | halt => rw [hst] at hit; exact absurd hit (by simp)
    | err e => rw [hst] at hit; exact absurd hit (by simp)
    | panic => rw [hst] at hit; exact absurd hit (by simp)

/-! ### Claim theorems on the execution engine -/

/-- C3: `LoopBegin t` sets the program counter to `t` (the matching
`LoopEnd`'s index) exactly when the cell at the pointer is zero, `LoopEnd t`
sets it to `t` exactly when that cell is nonzero, in every case the counter
is then advanced by exactly one, the loop exits exactly when the counter
reaches the instruction count, and a run of a parsed program succeeds
exactly when the counter reaches the program length. -/
theorem c3_jump_semantics :
    (∀ (prog : List Instr) (s : BfState) (t : Nat),
      prog[s.pc]? = some (Instr.LoopBegin t) → s.ptr < s.mem.length →
      step prog s = .next { s with pc := (if s.mem.getD s.ptr 0 = 0 then t else s.pc) + 1 }) ∧
    (∀ (prog : List Instr) (s : BfState) (t : Nat),
      prog[s.pc]? = some (Instr.LoopEnd t) → s.ptr < s.mem.length →
      step prog s = .next { s with pc := (if s.mem.getD s.ptr 0 ≠ 0 then t else s.pc) + 1 }) ∧
    (∀ (prog : List Instr) (s : BfState), step prog s = .halt ↔ prog.length ≤ s.pc) ∧
    (∀ (src : List Char) (prog : List Instr) (input : List InEvent) (fuel : Nat)
       (out : List Nat),
      parse src = .ok prog →
      (runFuel prog fuel (initState input) = .ok out ↔
        ∃ k s', k < fuel ∧ iterN prog k (initState input) = some s' ∧
          s'.pc = prog.length ∧ out = s'.output)) := by
  refine ⟨fun prog s t h hp => step_loopbegin h hp,
    fun prog s t h hp => step_loopend h hp, ?_, ?_⟩
  · intro prog s
    constructor
    · intro h
      by_contra hlt
      have hfetch : prog[s.pc]? = some prog[s.pc] := List.getElem?_eq_getElem (by omega)
      exact step_ne_halt hfetch h
    · intro h
      exact step_none (List.getElem?_eq_none h)
  · intro src prog input fuel out hparse
    constructor
    · intro h
      exact runFuel_ok_dir1 (parse_targets_lt hparse) fuel (initState input) out
        (Nat.zero_le _) h
    · intro ⟨k, s', hk, hit, hpc, hout⟩
      rw [hout]
      exact runFuel_ok_dir2 k (initState input) s' fuel hit hpc hk

/-- C3 witness: the jump semantics at concrete states, the halt condition
for the empty program, and the termination condition for `parse "+"`. -/
theorem c3_witness :
    step [Instr.LoopBegin 5] ⟨[0], 0, 0, [], []⟩ = .next ⟨[0], 0, 6, [], []⟩ ∧
    step [Instr.LoopEnd 3] ⟨[7], 0, 0, [], []⟩ = .next ⟨[7], 0, 4, [], []⟩ ∧
    (step ([] : List Instr) ⟨[0], 0, 0, [], []⟩ = .halt ↔ ([] : List Instr).length ≤ 0) ∧
    (runFuel [Instr.Add 1] 2 (initState []) = .ok [] ↔
      ∃ k s', k < 2 ∧ iterN [Instr.Add 1] k (initState []) = some s' ∧
        s'.pc = [Instr.Add 1].length ∧ [] = s'.output) :=
  ⟨c3_jump_semantics.1 [Instr.LoopBegin 5] ⟨[0], 0, 0, [], []⟩ 5 rfl (by decide),
    c3_jump_semantics.2.1 [Instr.LoopEnd 3] ⟨[7], 0, 0, [], []⟩ 3 rfl (by decide),
    c3_jump_semantics.2.2.1 [] ⟨[0], 0, 0, [], []⟩,
    c3_jump_semantics.2.2.2 ['+'] [Instr.Add 1] [] 2 [] rfl⟩

/-- C7: a `Move` instruction whose negative delta would take the pointer
below zero makes the step fail with the pointer-underflow error (distinct
from the other runtime errors), and the run stops there with no further
instruction performed and the output unchanged. -/
theorem c7_pointer_underflow (prog : List Instr) (s : BfState) (x : Int)
    (h : prog[s.pc]? = some (Instr.Ptr x)) (hx : x < 0)
    (hptr : (s.ptr : Int) + x < 0) :
    step prog s = .err .ptrUnderflow ∧
    (∀ fuel : Nat, runFuel prog (fuel + 1) s = .err .ptrUnderflow s.output) ∧
    RunErr.ptrUnderflow ≠ RunErr.ptrOverflow ∧
    RunErr.ptrUnderflow ≠ RunErr.readError := by
  have hun : ¬ (-x).toNat ≤ s.ptr := by omega
  have hstep := step_ptr_underflow h (by omega) hun
  refine ⟨hstep, ?_, by decide, by decide⟩
  intro fuel
  rw [runFuel_succ, hstep]

/-- C7 witness: `Move (-1)` from pointer 0 underflows immediately. -/
theorem c7_witness :
    step [Instr.Ptr (-1)] (initState []) = .err .ptrUnderflow ∧
    runFuel [Instr.Ptr (-1)] 1 (initState []) = .err .ptrUnderflow [] :=
  ⟨(c7_pointer_underflow [Instr.Ptr (-1)] (initState []) (-1) rfl (by decide)
      (by decide)).1,
    (c7_pointer_underflow [Instr.Ptr (-1)] (initState []) (-1) rfl (by decide)
      (by decide)).2.1 0⟩

/-- C8: `Input` reads exactly one event from the input stream: a byte is
stored verbatim in the cell at the pointer, end-of-stream stores zero
without any error, and a read failure fails the run with the read error. -/
theorem c8_input_semantics (prog : List Instr) (s : BfState)
    (h : prog[s.pc]? = some Instr.In) (hp : s.ptr < s.mem.length) :
    (s.input = [] →
      step prog s = .next { s with mem := s.mem.set s.ptr 0, pc := s.pc + 1 }) ∧
    (∀ (b : Nat) (rest : List InEvent), b < 256 → s.input = .byte b :: rest →
      step prog s = .next { s with mem := s.mem.set s.ptr b, input := rest,
                                   pc := s.pc + 1 }) ∧
    (∀ rest : List InEvent, s.input = .fail :: rest →
      step prog s = .err .readError) := by
  refine ⟨fun hin => step_in_eof h hp hin, ?_, fun rest hin => step_in_fail h hin⟩
  intro b rest hb hin
  rw [step_in_byte h hp hin, Nat.mod_eq_of_lt hb]

/-- C8 witness: the three input behaviors at concrete states. -/
theorem c8_witness :
    step [Instr.In] ⟨[9], 0, 0, [.byte 65], []⟩ = .next ⟨[65], 0, 1, [], []⟩ ∧
    step [Instr.In] ⟨[9], 0, 0, [], []⟩ = .next ⟨[0], 0, 1, [], []⟩ ∧
    step [Instr.In] ⟨[9], 0, 0, [.fail], []⟩ = .err .readError :=
  ⟨(c8_input_semantics [Instr.In] ⟨[9], 0, 0, [.byte 65], []⟩ rfl (by decide)).2.1
      65 [] (by decide) rfl,
    (c8_input_semantics [Instr.In] ⟨[9], 0, 0, [], []⟩ rfl (by decide)).1 rfl,
    (c8_input_semantics [Instr.In] ⟨[9], 0, 0, [.fail], []⟩ rfl (by decide)).2.2 [] rfl⟩

/-- C9: `Output` appends the UTF-8 encoding of the cell's value read as a
Unicode scalar in 0–255; cell values at least 128 produce the two-byte
encoding of that code point, not the raw byte. -/
theorem c9_output_latin1 (prog : List Instr) (s : BfState)
    (h : prog[s.pc]? = some Instr.Out) (hp : s.ptr < s.mem.length) :
    step prog s = .next { s with output := s.output ++ utf8Encode (s.mem.getD s.ptr 0),
                                 pc := s.pc + 1 } ∧
    (∀ b : Nat, 128 ≤ b → b < 256 →
      utf8Encode b = [192 + b / 64, 128 + b % 64] ∧
      (utf8Encode b).length = 2 ∧
      utf8Encode b ≠ [b] ∧
      64 * (b / 64) + b % 64 = b) ∧
    (∀ b : Nat, b < 128 → utf8Encode b = [b]) := by
  refine ⟨step_out h hp, ?_, ?_⟩
  · intro b h1 h2
    have he : utf8Encode b = [192 + b / 64, 128 + b % 64] := by
      rw [utf8Encode, if_neg (by omega)]
    refine ⟨he, by rw [he]; rfl, ?_, by omega⟩
    rw [he]
    intro hx
    injection hx with _ hx2
    exact List.noConfusion hx2
  · intro b hb
    rw [utf8Encode, if_pos hb]

/-- C9 witness: outputting a cell holding 200 emits the two bytes
`[195, 136]`, the UTF-8 encoding of the code point 200. -/
theorem c9_witness :
    step [Instr.Out] ⟨[200], 0, 0, [], []⟩ = .next ⟨[200], 0, 1, [], [195, 136]⟩ ∧
    utf8Encode 200 = [192 + 200 / 64, 128 + 200 % 64] ∧
    utf8Encode 200 ≠ [200] :=
  ⟨(c9_output_latin1 [Instr.Out] ⟨[200], 0, 0, [], []⟩ rfl (by decide)).1,
    ((c9_output_latin1 [Instr.Out] ⟨[200], 0, 0, [], []⟩ rfl (by decide)).2.1
      200 (by decide) (by decide)).1,
    ((c9_output_latin1 [Instr.Out] ⟨[200], 0, 0, [], []⟩ rfl (by decide)).2.1
      200 (by decide) (by decide)).2.2.1⟩

theorem getD_set_ne {l : List Nat} {i j : Nat} {a : Nat} (h : j ≠ i) :
    (l.set j a).getD i 0 = l.getD i 0 := by
  rw [List.getD_eq_getElem?_getD, List.getD_eq_getElem?_getD, List.getElem?_set_ne h]

theorem getD_append_lt {l l2 : List Nat} {i : Nat} (h : i < l.length) :
    (l ++ l2).getD i 0 = l.getD i 0 := by
  rw [List.getD_eq_getElem?_getD, List.getD_eq_getElem?_getD, List.getElem?_append,
    if_pos h]

/-- C10: each instruction writes at most the single cell addressed by the
pointer: `Add` and `Input` leave every other cell, the pointer and nothing
else of the tape changed; `Output` and the brackets change no cell and not
the pointer; `Move` changes no existing cell's value and at most appends
one fresh zero cell at the high end. -/
theorem c10_frame (prog : List Instr) (s s1 : BfState)
    (hstep : step prog s = .next s1) :
    (∀ x : Nat, prog[s.pc]? = some (Instr.Add x) →
      s1.ptr = s.ptr ∧ s1.mem.length = s.mem.length ∧
      ∀ i : Nat, i ≠ s.ptr → s1.mem.getD i 0 = s.mem.getD i 0) ∧
    (prog[s.pc]? = some Instr.In →
      s1.ptr = s.ptr ∧ s1.mem.length = s.mem.length ∧
      ∀ i : Nat, i ≠ s.ptr → s1.mem.getD i 0 = s.mem.getD i 0) ∧
    (prog[s.pc]? = some Instr.Out → s1.mem = s.mem ∧ s1.ptr = s.ptr) ∧
    (∀ t : Nat,
      prog[s.pc]? = some (Instr.LoopBegin t) ∨ prog[s.pc]? = some (Instr.LoopEnd t) →
      s1.mem = s.mem ∧ s1.ptr = s.ptr) ∧
    (∀ x : Int, prog[s.pc]? = some (Instr.Ptr x) →
      (∀ i : Nat, i < s.mem.length → s1.mem.getD i 0 = s.mem.getD i 0) ∧
      (s1.mem = s.mem ∨ s1.mem = s.mem ++ [0])) := by
  refine ⟨?_, ?_, ?_, ?_, ?_⟩
  · intro x h
    by_cases hp : s.ptr < s.mem.length
    · rw [step_add h hp] at hstep
      injection hstep with h1
      rw [← h1]
      exact ⟨rfl, List.length_set _ _ _, fun i hi => getD_set_ne (Ne.symm hi)⟩
    · rw [step_add_panic h hp] at hstep
      exact StepResult.noConfusion hstep
  · intro h
    cases hin : s.input with
    | nil =>
      by_cases hp : s.ptr < s.mem.length
      · rw [step_in_eof h hp hin] at hstep
        injection hstep with h1
        rw [← h1]
        exact ⟨rfl, List.length_set _ _ _, fun i hi => getD_set_ne (Ne.symm hi)⟩
      · rw [step, h, hin] at hstep
        simp only [if_neg hp] at hstep
        exact StepResult.noConfusion hstep
    | cons ev rest =>
      cases ev with
      | byte b =>
        by_cases hp : s.ptr < s.mem.length
        · rw [step_in_byte h hp hin] at hstep
          injection hstep with h1
          rw [← h1]
          exact ⟨rfl, List.length_set _ _ _, fun i hi => getD_set_ne (Ne.symm hi)⟩
        · rw [step, h, hin] at hstep
          simp only [if_neg hp] at hstep
          exact StepResult.noConfusion hstep
      | fail =>
        rw [step_in_fail h hin] at hstep
        exact StepResult.noConfusion hstep
  · intro h
    by_cases hp : s.ptr < s.mem.length
    · rw [step_out h hp] at hstep
      injection hstep with h1
      rw [← h1]
      exact ⟨rfl, rfl⟩
    · rw [step, h] at hstep
      simp only [if_neg hp] at hstep
      exact StepResult.noConfusion hstep
  · intro t ht
    rcases ht with h | h
    · by_cases hp : s.ptr < s.mem.length
      · rw [step_loopbegin h hp] at hstep
        injection hstep with h1
        rw [← h1]
        exact ⟨rfl, rfl⟩
      · rw [step, h] at hstep
        simp only [if_neg hp] at hstep
        exact StepResult.noConfusion hstep
    · by_cases hp : s.ptr < s.mem.length
      · rw [step_loopend h hp] at hstep
        injection hstep with h1
        rw [← h1]
        exact ⟨rfl, rfl⟩
      · rw [step, h] at hstep
        simp only [if_neg hp] at hstep
        exact StepResult.noConfusion hstep
  · intro x h
    by_cases hx : 0 ≤ x
    · by_cases hov : s.ptr + x.toNat ≤ USIZE_MAX
      · rw [step_ptr_nonneg h hx hov] at hstep
        injection hstep with h1
        rw [← h1]
        by_cases hgrow : s.mem.length ≤ s.ptr + x.toNat
        · simp only [if_pos hgrow]
          exact ⟨fun i hi => getD_append_lt hi, Or.inr (by simp)⟩
        · simp only [if_neg hgrow]
          exact ⟨fun i _ => by simp, Or.inl (by simp)⟩
      · rw [step_ptr_overflow h hx hov] at hstep
        exact StepResult.noConfusion hstep
    · by_cases hun : (-x).toNat ≤ s.ptr
      · rw [step_ptr_neg h hx hun] at hstep
        injection hstep with h1
        rw [← h1]
        by_cases hgrow : s.mem.length ≤ s.ptr - (-x).toNat
        · simp only [if_pos hgrow]
          exact ⟨fun i hi => getD_append_lt hi, Or.inr (by simp)⟩
        · simp only [if_neg hgrow]
          exact ⟨fun i _ => by simp, Or.inl (by simp)⟩
      · rw [step_ptr_underflow h hx hun] at hstep
        exact StepResult.noConfusion hstep

theorem filterMap_replicate_char {c : Char} {ins : Instr} (h : charToInstr c = some ins) :
    ∀ n, (List.replicate n c).filterMap charToInstr = List.replicate n ins := by
  intro n
  induction n with
  | zero => rfl
  | succ m ih =>
    rw [List.replicate_succ, List.replicate_succ, List.filterMap_cons, h, ih]

theorem coalesceGo_ptr_run :
    ∀ (n : Nat) (a : Int),
      coalesceGo (Instr.Ptr a) (List.replicate n (Instr.Ptr 1) ++ [Instr.Add 1])
        = [Instr.Ptr (a + n), Instr.Add 1] := by
  intro n
  induction n with
  | zero =>
    intro a
    rw [show List.replicate 0 (Instr.Ptr 1) = [] from rfl, List.nil_append,
      show coalesceGo (Instr.Ptr a) [Instr.Add 1] = [Instr.Ptr a, Instr.Add 1] from rfl]
    norm_num
  | succ m ih =>
    intro a
    rw [List.replicate_succ, List.cons_append,
      show coalesceGo (Instr.Ptr a)
          (Instr.Ptr 1 :: (List.replicate m (Instr.Ptr 1) ++ [Instr.Add 1]))
        = coalesceGo (Instr.Ptr (a + 1))
          (List.replicate m (Instr.Ptr 1) ++ [Instr.Add 1]) from rfl,
      ih]
    congr 2
    push_cast
    ring

theorem c1_parse_aux :
    parse (List.replicate 30001 '>' ++ ['+']) = .ok [Instr.Ptr 30001, Instr.Add 1] := by
  have hfm : (List.replicate 30001 '>' ++ ['+']).filterMap charToInstr
      = List.replicate 30001 (Instr.Ptr 1) ++ [Instr.Add 1] := by
    rw [List.filterMap_append,
      filterMap_replicate_char (show charToInstr '>' = some (Instr.Ptr 1) from rfl)]
    rfl
  have hco : coalesce ((List.replicate 30001 '>' ++ ['+']).filterMap charToInstr)
      = [Instr.Ptr 30001, Instr.Add 1] := by
    rw [hfm, show List.replicate 30001 (Instr.Ptr 1)
        = Instr.Ptr 1 :: List.replicate 30000 (Instr.Ptr 1) from rfl,
      List.cons_append, coalesce, coalesceGo_ptr_run]
    norm_num
  rw [parse_eq_scan, hco]
  rfl

theorem c1_step1 :
    step [Instr.Ptr 30001, Instr.Add 1] (initState [])
      = .next ⟨List.replicate 30000 0 ++ [0], 30001, 1, [], []⟩ := by
  have hcond : (initState []).mem.length ≤ (initState []).ptr + (30001 : Int).toNat := by
    show (List.replicate INITIAL_CAPACITY 0).length ≤ _
    rw [List.length_replicate]
    decide
  have hov : (initState []).ptr + (30001 : Int).toNat ≤ USIZE_MAX := by decide
  rw [step_ptr_nonneg rfl (by decide) hov, if_pos hcond]
  rfl

theorem c1_step2 :
    step [Instr.Ptr 30001, Instr.Add 1]
      ⟨List.replicate 30000 0 ++ [0], 30001, 1, [], []⟩ = .panic := by
  have hnp : ¬ (⟨List.replicate 30000 0 ++ [0], 30001, 1, [], []⟩ : BfState).ptr
      < (⟨List.replicate 30000 0 ++ [0], 30001, 1, [], []⟩ : BfState).mem.length := by
    show ¬ 30001 < (List.replicate 30000 0 ++ [0]).length
    rw [List.length_append, List.length_replicate]
    norm_num
  exact step_add_panic rfl hnp

/-- C1 is violated by the code (a code bug): the engine grows the tape by
at most one cell per `Move`, so after the coalesced `Move 30001` of the
program `>`×30001 then `+` the pointer is 30001 while the tape has only
30001 cells (indices 0..30000), i.e. the pointer does not index an
existing cell, and the following `Add`'s cell access is out of bounds (a
panic), contradicting the claim that every subsequent access is in
bounds. -/
theorem c1_tape_growth_bug :
    parse (List.replicate 30001 '>' ++ ['+']) = .ok [Instr.Ptr 30001, Instr.Add 1] ∧
    iterN [Instr.Ptr 30001, Instr.Add 1] 1 (initState [])
      = some ⟨List.replicate 30000 0 ++ [0], 30001, 1, [], []⟩ ∧
    (List.replicate 30000 0 ++ [0] : List Nat).length ≤ 30001 ∧
    runFuel [Instr.Ptr 30001, Instr.Add 1] 3 (initState []) = .panic [] := by
  refine ⟨c1_parse_aux, ?_, ?_, ?_⟩
  · rw [iterN_succ, c1_step1]
    rfl
  · rw [List.length_append, List.length_replicate]
    norm_num
  · rw [runFuel_succ, c1_step1]
    simp only
    rw [runFuel_succ, c1_step2]

/-! ### Machinery for the coalescing refinement -/

theorem scanBr_append_no_brackets :
    ∀ (seg rest : List Instr) (i : Nat) (st : List Nat),
      (∀ ins ∈ seg, ∀ t : Nat, ins ≠ Instr.LoopBegin t ∧ ins ≠ Instr.LoopEnd t) →
      scanBr (seg ++ rest) i st = scanBr rest (i + seg.length) st := by
  intro seg
  induction seg with
  | nil => intro rest i st _; rw [List.nil_append, List.length_nil, Nat.add_zero]
  | cons ins seg2 ih =>
    intro rest i st hnb
    rw [List.cons_append, scanBr_cons]
    have htail := fun x hx => hnb x (List.mem_cons_of_mem ins hx)
    have hlen : i + (ins :: seg2).length = (i + 1) + seg2.length := by
      rw [List.length_cons]
      omega
    cases ins with
    | LoopBegin t => exact absurd rfl (hnb _ (List.mem_cons_self _ _) t).1
    | LoopEnd t => exact absurd rfl (hnb _ (List.mem_cons_self _ _) t).2
    | Add x => rw [ih rest (i + 1) st htail, hlen]
    | Ptr x => rw [ih rest (i + 1) st htail, hlen]
    | Out => rw [ih rest (i + 1) st htail, hlen]
    | In => rw [ih rest (i + 1) st htail, hlen]

theorem scanBr_no_brackets (l : List Instr) (i : Nat) (st : List Nat)
    (hnb : ∀ ins ∈ l, ∀ t : Nat, ins ≠ Instr.LoopBegin t ∧ ins ≠ Instr.LoopEnd t) :
    scanBr l i st = .ok ([], st) := by
  have := scanBr_append_no_brackets l [] i st hnb
  rw [List.append_nil] at this
  rw [this, scanBr_nil]

/-- Running a block of `j` single-cell forward moves: the pointer advances
by `j`, growing the tape one cell at a time as needed, and the in-bounds
invariant of the pointer survives. -/
theorem run_moves_grow (prog : List Instr) :
    ∀ (j : Nat) (s : BfState),
      (∀ idx : Nat, idx < j → prog[s.pc + idx]? = some (Instr.Ptr 1)) →
      s.ptr < s.mem.length →
      s.ptr + j ≤ USIZE_MAX →
      ∃ s', iterN prog j s = some s' ∧ s'.pc = s.pc + j ∧ s'.ptr = s.ptr + j ∧
        s'.ptr < s'.mem.length ∧ s'.input = s.input ∧ s'.output = s.output := by
  intro j
  induction j with
  | zero =>
    intro s _ hin _
    exact ⟨s, rfl, by omega, by omega, hin, rfl, rfl⟩
  | succ m ih =>
    intro s hseg hin hov
    have hfetch : prog[s.pc]? = some (Instr.Ptr 1) := by
      have := hseg 0 (by omega)
      rwa [Nat.add_zero] at this
    have hov1 : s.ptr + (1 : Int).toNat ≤ USIZE_MAX := by
      have : (1 : Int).toNat = 1 := rfl
      omega
    have hstep := step_ptr_nonneg hfetch (by decide) hov1
    set s1 : BfState :=
      { s with ptr := s.ptr + (1 : Int).toNat,
               mem := if s.mem.length ≤ s.ptr + (1 : Int).toNat then s.mem ++ [0] else s.mem,
               pc := s.pc + 1 } with hs1
    have hptr1 : s1.ptr = s.ptr + 1 := rfl
    have hpc1 : s1.pc = s.pc + 1 := rfl
    have hin1 : s1.ptr < s1.mem.length := by
      rw [hs1]
      by_cases hg : s.mem.length ≤ s.ptr + (1 : Int).toNat
      · simp only [if_pos hg, List.length_append, List.length_replicate]
        have : (1 : Int).toNat = 1 := rfl
        simp only [List.length_cons, List.length_nil]
        omega
      · simp only [if_neg hg]
        have : (1 : Int).toNat = 1 := rfl
        omega
    rcases ih s1 (fun idx hidx => by
        have := hseg (idx + 1) (by omega)
        rw [show s1.pc + idx = s.pc + (idx + 1) from by rw [hpc1]; omega]
        exact this)
      hin1 (by rw [hptr1]; omega) with ⟨s', hit, hpc, hptr, hbound, hinp, hout⟩
    refine ⟨s', ?_, ?_, ?_, hbound, ?_, ?_⟩
    · rw [iterN_next hstep]
      exact hit
    · rw [hpc, hs1]
      simp only
      omega
    · rw [hptr, hptr1]
      omega
    · rw [hinp, hs1]
    · rw [hout, hs1]

theorem length_run_program :
    (List.replicate 30001 (Instr.Ptr 1) ++ [Instr.Add 1]).length = 30002 := by
  rw [List.length_append, List.length_replicate]
  rfl

theorem parseUnopt_moves_aux :
    parseUnopt (List.replicate 30001 '>' ++ ['+'])
      = .ok (List.replicate 30001 (Instr.Ptr 1) ++ [Instr.Add 1]) := by
  have hfm : (List.replicate 30001 '>' ++ ['+']).filterMap charToInstr
      = List.replicate 30001 (Instr.Ptr 1) ++ [Instr.Add 1] := by
    rw [List.filterMap_append,
      filterMap_replicate_char (show charToInstr '>' = some (Instr.Ptr 1) from rfl)]
    rfl
  have hnb : ∀ ins ∈ List.replicate 30001 (Instr.Ptr 1) ++ [Instr.Add 1],
      ∀ t : Nat, ins ≠ Instr.LoopBegin t ∧ ins ≠ Instr.LoopEnd t := by
    intro ins hins t
    rcases List.mem_append.mp hins with hm | hm
    · rw [(List.mem_replicate.mp hm).2]
      exact ⟨fun hx => Instr.noConfusion hx, fun hx => Instr.noConfusion hx⟩
    · rcases List.mem_cons.mp hm with rfl | hm
      · exact ⟨fun hx => Instr.noConfusion hx, fun hx => Instr.noConfusion hx⟩
      · exact absurd hm (List.not_mem_nil ins)
  rw [parseUnopt_eq_scan, hfm, scanBr_no_brackets _ 0 [] hnb]
  rfl

theorem run_unopt_moves_ok :
    runFuel (List.replicate 30001 (Instr.Ptr 1) ++ [Instr.Add 1]) 30003 (initState [])
      = .ok [] := by
  have hseg : ∀ idx : Nat, idx < 30001 →
      (List.replicate 30001 (Instr.Ptr 1) ++ [Instr.Add 1])[(initState []).pc + idx]?
        = some (Instr.Ptr 1) := by
    intro idx hidx
    have hpc : (initState []).pc = 0 := rfl
    rw [hpc, Nat.zero_add,
      List.getElem?_append_left (by rw [List.length_replicate]; omega),
      List.getElem?_replicate, if_pos hidx]
  have hin : (initState []).ptr < (initState []).mem.length := by
    show 0 < (List.replicate INITIAL_CAPACITY 0).length
    rw [List.length_replicate]
    decide
  rcases run_moves_grow _ 30001 (initState []) hseg hin (by decide)
    with ⟨s', hit, hpc, hptr, hbound, hinp, hout⟩
  have hpc' : s'.pc = 30001 := by rw [hpc]; rfl
  have hfetch : (List.replicate 30001 (Instr.Ptr 1) ++ [Instr.Add 1])[s'.pc]?
      = some (Instr.Add 1) := by
    rw [hpc', List.getElem?_append_right (by rw [List.length_replicate]),
      List.length_replicate]
    rfl
  have hstep := step_add hfetch hbound
  set s2 : BfState :=
    { s' with mem := s'.mem.set s'.ptr ((s'.mem.getD s'.ptr 0 + 1) % 256),
              pc := s'.pc + 1 } with hs2
  have hit2 : iterN (List.replicate 30001 (Instr.Ptr 1) ++ [Instr.Add 1]) 30002
      (initState []) = some s2 := by
    rw [show (30002 : Nat) = 30001 + 1 from rfl, iterN_comp 30001 hit 1,
      iterN_succ, hstep]
    rfl
  have hpc2 : s2.pc = (List.replicate 30001 (Instr.Ptr 1) ++ [Instr.Add 1]).length := by
    rw [length_run_program, hs2]
    simp only
    omega
  have hout2 : s2.output = [] := by
    rw [hs2]
    simp only
    rw [hout]
    rfl
  rw [← hout2]
  exact runFuel_ok_dir2 30002 (initState []) s2 30003 hit2 hpc2 (by omega)

theorem c2_step_ptr0 :
    step [Instr.Ptr 0] (initState [])
      = .next { initState [] with ptr := 0, pc := 1 } := by
  have hcond : ¬ (initState []).mem.length ≤ (initState []).ptr + (0 : Int).toNat := by
    show ¬ (List.replicate INITIAL_CAPACITY 0).length ≤ _
    rw [List.length_replicate]
    decide
  rw [step_ptr_nonneg rfl (by decide) (by decide), if_neg hcond]
  rfl

/-- C2 counterexample: coalescing is not behavior-preserving.  For `<>`
the command-by-command program fails with a pointer underflow while the
coalesced `Move 0` program succeeds, and for `>`×30001 then `+` the
command-by-command program succeeds (growing the tape one move at a time)
while the coalesced program panics on an out-of-bounds access. -/
theorem c2_counterexample :
    parse ['<', '>'] = .ok [Instr.Ptr 0] ∧
    parseUnopt ['<', '>'] = .ok [Instr.Ptr (-1), Instr.Ptr 1] ∧
    runFuel [Instr.Ptr (-1), Instr.Ptr 1] 2 (initState []) = .err .ptrUnderflow [] ∧
    runFuel [Instr.Ptr 0] 2 (initState []) = .ok [] ∧
    parseUnopt (List.replicate 30001 '>' ++ ['+'])
      = .ok (List.replicate 30001 (Instr.Ptr 1) ++ [Instr.Add 1]) ∧
    runFuel (List.replicate 30001 (Instr.Ptr 1) ++ [Instr.Add 1]) 30003 (initState [])
      = .ok [] ∧
    runFuel [Instr.Ptr 30001, Instr.Add 1] 3 (initState []) = .panic [] := by
  refine ⟨rfl, rfl, ?_, ?_, parseUnopt_moves_aux, run_unopt_moves_ok, ?_⟩
  · rw [runFuel_succ, step_ptr_underflow rfl (by decide) (by decide)]
    rfl
  · rw [runFuel_succ, c2_step_ptr0]
    simp only
    rw [runFuel_succ, step_none rfl]
    rfl
  · rw [runFuel_succ, c1_step1]
    simp only
    rw [runFuel_succ, c1_step2]

theorem segMatch_ne_nil {q : Instr} {seg : List Instr} (h : SegMatch q seg) :
    seg ≠ [] := by
  cases q with
  | Add s =>
    rcases h with ⟨ds, hne, rfl, _⟩
    intro hx
    exact hne (List.map_eq_nil.mp hx)
  | Ptr d =>
    rcases h with ⟨ds, hne, rfl, _⟩
    intro hx
    exact hne (List.map_eq_nil.mp hx)
  | LoopBegin t => rw [h]; exact fun hx => List.noConfusion hx
  | LoopEnd t => rw [h]; exact fun hx => List.noConfusion hx
  | Out => rw [h]; exact fun hx => List.noConfusion hx
  | In => rw [h]; exact fun hx => List.noConfusion hx

theorem segMatch_self (q : Instr) : SegMatch q [q] := by
  cases q with
  | Add s => exact ⟨[s], by simp, rfl, rfl⟩
  | Ptr d => exact ⟨[d], by simp, rfl, by simp⟩
  | LoopBegin t => rfl
  | LoopEnd t => rfl
  | Out => rfl
  | In => rfl

theorem coalesceFn_some {a b m : Instr} (h : coalesceFn a b = some m) :
    (∃ c d, a = .Add c ∧ b = .Add d ∧ m = .Add ((c + d) % 256)) ∨
    (∃ c d, a = .Ptr c ∧ b = .Ptr d ∧ m = .Ptr (c + d)) := by
  cases a <;> cases b <;>
    first
    | exact Option.noConfusion h
    | exact Or.inl ⟨_, _, rfl, rfl, (Option.some.inj h).symm⟩
    | exact Or.inr ⟨_, _, rfl, rfl, (Option.some.inj h).symm⟩

theorem coalesceGo_chunked :
    ∀ (l : List Instr) (a : Instr) (seg : List Instr), SegMatch a seg →
      ∃ segs, Chunked (coalesceGo a l) segs ∧ segs.flatten = seg ++ l := by
  intro l
  induction l with
  | nil =>
    intro a seg hm
    refine ⟨[seg], Chunked.cons hm Chunked.nil, ?_⟩
    rw [List.flatten_cons]
    simp
  | cons b rest ih =>
    intro a seg hm
    cases hfn : coalesceFn a b with
    | some m =>
      rw [show coalesceGo a (b :: rest) = coalesceGo m rest from by
        rw [coalesceGo, hfn]]
      rcases coalesceFn_some hfn with ⟨c, d, rfl, rfl, rfl⟩ | ⟨c, d, rfl, rfl, rfl⟩
      · rcases hm with ⟨ds, hne, rfl, hsum⟩
        rcases ih (.Add ((c + d) % 256)) (ds.map Instr.Add ++ [Instr.Add d])
            ⟨ds ++ [d], by simp, by simp, by
              rw [List.sum_append, List.sum_cons, List.sum_nil]
              omega⟩
          with ⟨segs, hch, hfl⟩
        refine ⟨segs, hch, ?_⟩
        rw [hfl, List.append_assoc]
        rfl
      · rcases hm with ⟨ds, hne, rfl, hsum⟩
        rcases ih (.Ptr (c + d)) (ds.map Instr.Ptr ++ [Instr.Ptr d])
            ⟨ds ++ [d], by simp, by simp, by
              rw [List.sum_append, List.sum_cons, List.sum_nil, hsum]
              omega⟩
          with ⟨segs, hch, hfl⟩
        refine ⟨segs, hch, ?_⟩
        rw [hfl, List.append_assoc]
        rfl
    | none =>
      rw [show coalesceGo a (b :: rest) = a :: coalesceGo b rest from by
        rw [coalesceGo, hfn]]
      rcases ih b [b] (segMatch_self b) with ⟨segs, hch, hfl⟩
      refine ⟨seg :: segs, Chunked.cons hm hch, ?_⟩
      rw [List.flatten_cons, hfl]
      rfl

theorem coalesce_chunked (L : List Instr) :
    ∃ segs, Chunked (coalesce L) segs ∧ segs.flatten = L := by
  cases L with
  | nil => exact ⟨[], Chunked.nil, rfl⟩
  | cons x xs =>
    rcases coalesceGo_chunked xs x [x] (segMatch_self x) with ⟨segs, hch, hfl⟩
    exact ⟨segs, hch, by rw [hfl]; rfl⟩

theorem chunked_length {Q : List Instr} {segs : List (List Instr)} (h : Chunked Q segs) :
    Q.length = segs.length := by
  induction h with
  | nil => rfl
  | cons hm hch ih => rw [List.length_cons, List.length_cons, ih]

theorem chunked_get {Q : List Instr} {segs : List (List Instr)} (h : Chunked Q segs) :
    ∀ (k : Nat) (q : Instr), Q[k]? = some q →
      ∃ sg, segs[k]? = some sg ∧ SegMatch q sg := by
  induction h with
  | nil =>
    intro k q hq
    exact absurd hq (by simp)
  | cons hm hch ih =>
    intro k q hq
    cases k with
    | zero =>
      rw [List.getElem?_cons_zero] at hq
      exact ⟨_, List.getElem?_cons_zero, Option.some.inj hq ▸ hm⟩
    | succ n =>
      rw [List.getElem?_cons_succ] at hq
      rcases ih n q hq with ⟨sg, h1, h2⟩
      exact ⟨sg, by rw [List.getElem?_cons_succ]; exact h1, h2⟩

theorem startN_succ (segs : List (List Instr)) (k : Nat) (h : k < segs.length) :
    startN segs (k + 1) = startN segs k + (segs.getD k []).length := by
  rw [startN, startN, List.map_take, List.map_take,
    List.sum_take_succ _ k (by rw [List.length_map]; omega)]
  congr 1
  rw [List.getElem_map, List.getD_eq_getElem _ _ h]

theorem startN_full (segs : List (List Instr)) :
    startN segs segs.length = segs.flatten.length := by
  rw [startN, List.take_length, List.length_flatten]

theorem flatten_drop :
    ∀ (segs : List (List Instr)) (k : Nat), k ≤ segs.length →
      (segs.drop k).flatten = segs.flatten.drop (startN segs k) := by
  intro segs
  induction segs with
  | nil =>
    intro k hk
    cases k with
    | zero => rfl
    | succ m => exact absurd hk (by simp)
  | cons seg rest ih =>
    intro k hk
    cases k with
    | zero => rfl
    | succ m =>
      rw [List.drop_succ_cons, ih m (by simpa using hk), List.flatten_cons]
      have hsn : startN (seg :: rest) (m + 1) = seg.length + startN rest m := by
        rw [startN, List.take_succ_cons, List.map_cons, List.sum_cons, startN]
      rw [hsn, List.drop_append]

theorem flatten_getElem (segs : List (List Instr)) (k : Nat) (hk : k < segs.length)
    (idx : Nat) (hidx : idx < (segs.getD k []).length) :
    segs.flatten[startN segs k + idx]? = (segs.getD k [])[idx]? := by
  have hdrop := flatten_drop segs k (by omega)
  have h1 : segs.flatten[startN segs k + idx]?
      = (segs.flatten.drop (startN segs k))[idx]? := by
    rw [List.getElem?_drop]
  rw [h1, ← hdrop]
  have h2 : segs.drop k = segs.getD k [] :: segs.drop (k + 1) := by
    rw [List.drop_eq_getElem_cons hk, List.getD_eq_getElem _ _ hk]
  rw [h2, List.flatten_cons, List.getElem?_append_left hidx]

/-- The bracket scan commutes with chunking: scanning the coalesced stream
and scanning the primitive stream produce the same pairs and final stack up
to the segment-start reindexing `startN`. -/
theorem chunked_scan {Q : List Instr} {segs : List (List Instr)} (hch : Chunked Q segs) :
    ∀ (n k : Nat) (stQ : List Nat) (pairs : List (Nat × Nat)) (fin : List Nat),
      segs.length - k = n → k ≤ segs.length →
      scanBr (Q.drop k) k stQ = .ok (pairs, fin) →
      scanBr (segs.flatten.drop (startN segs k)) (startN segs k) (stQ.map (startN segs))
        = .ok (pairs.map (fun p => (startN segs p.1, startN segs p.2)),
               fin.map (startN segs)) := by
  have hlen := chunked_length hch
  intro n
  induction n with
  | zero =>
    intro k stQ pairs fin hn hk hs
    have hkeq : k = segs.length := by omega
    subst hkeq
    rw [← hlen, List.drop_length, scanBr_nil] at hs
    injection hs with h
    injection h with h1 h2
    subst h1
    subst h2
    rw [startN_full, List.drop_length, scanBr_nil, List.map_nil]
  | succ m ih =>
    intro k stQ pairs fin hn hk hs
    have hklt : k < segs.length := by omega
    have hkltQ : k < Q.length := by omega
    rw [List.drop_eq_getElem_cons hkltQ] at hs
    rcases chunked_get hch k Q[k] (List.getElem?_eq_getElem hkltQ) with ⟨sg, hsg, hsm⟩
    have hsgD : segs.getD k [] = sg := by
      rw [List.getD_eq_getElem?_getD, hsg]
      rfl
    have hstartsucc : startN segs (k + 1) = startN segs k + sg.length := by
      rw [startN_succ segs k hklt, hsgD]
    have hLdrop : segs.flatten.drop (startN segs k)
        = sg ++ segs.flatten.drop (startN segs (k + 1)) := by
      rw [← flatten_drop segs k (by omega), List.drop_eq_getElem_cons hklt,
        List.flatten_cons, flatten_drop segs (k + 1) (by omega)]
      congr 1
      rw [← List.getD_eq_getElem segs [] hklt]
      exact hsgD
    cases hQk : Q[k] with
    | Add x =>
      rw [hQk] at hs hsm
      rcases hsm with ⟨ds, hdsne, rfl, hsum⟩
      simp only [scanBr_cons] at hs
      have hnb : ∀ ins ∈ ds.map Instr.Add, ∀ t : Nat,
          ins ≠ Instr.LoopBegin t ∧ ins ≠ Instr.LoopEnd t := by
        intro ins hins t
        rcases List.mem_map.mp hins with ⟨d0, _, rfl⟩
        exact ⟨fun hx => Instr.noConfusion hx, fun hx => Instr.noConfusion hx⟩
      rw [hLdrop, scanBr_append_no_brackets _ _ _ _ hnb, ← hstartsucc]
      exact ih (k + 1) stQ pairs fin (by omega) (by omega) hs
    | Ptr x =>
      rw [hQk] at hs hsm
      rcases hsm with ⟨ds, hdsne, rfl, hsum⟩
      simp only [scanBr_cons] at hs
      have hnb : ∀ ins ∈ ds.map Instr.Ptr, ∀ t : Nat,
          ins ≠ Instr.LoopBegin t ∧ ins ≠ Instr.LoopEnd t := by
        intro ins hins t
        rcases List.mem_map.mp hins with ⟨d0, _, rfl⟩
        exact ⟨fun hx => Instr.noConfusion hx, fun hx => Instr.noConfusion hx⟩
      rw [hLdrop, scanBr_append_no_brackets _ _ _ _ hnb, ← hstartsucc]
      exact ih (k + 1) stQ pairs fin (by omega) (by omega) hs
    | Out =>
      rw [hQk] at hs hsm
      rw [show SegMatch Instr.Out sg = (sg = [Instr.Out]) from rfl] at hsm
      subst hsm
      simp only [scanBr_cons] at hs
      rw [hLdrop, List.singleton_append]
      simp only [scanBr_cons]
      rw [show startN segs k + 1 = startN segs (k + 1) from by
        rw [hstartsucc]; rfl]
      exact ih (k + 1) stQ pairs fin (by omega) (by omega) hs
    | In =>
      rw [hQk] at hs hsm
      rw [show SegMatch Instr.In sg = (sg = [Instr.In]) from rfl] at hsm
      subst hsm
      simp only [scanBr_cons] at hs
      rw [hLdrop, List.singleton_append]
      simp only [scanBr_cons]
      rw [show startN segs k + 1 = startN segs (k + 1) from by
        rw [hstartsucc]; rfl]
      exact ih (k + 1) stQ pairs fin (by omega) (by omega) hs
    | LoopBegin t =>
      rw [hQk] at hs hsm
      rw [show SegMatch (Instr.LoopBegin t) sg = (sg = [Instr.LoopBegin t]) from rfl] at hsm
      subst hsm
      simp only [scanBr_cons] at hs
      rw [hLdrop, List.singleton_append]
      simp only [scanBr_cons]
      rw [show startN segs k + 1 = startN segs (k + 1) from by
        rw [hstartsucc]; rfl]
      have := ih (k + 1) (k :: stQ) pairs fin (by omega) (by omega) hs
      rw [List.map_cons] at this
      exact this
    | LoopEnd t =>
      rw [hQk] at hs hsm
      rw [show SegMatch (Instr.LoopEnd t) sg = (sg = [Instr.LoopEnd t]) from rfl] at hsm
      subst hsm
      simp only [scanBr_cons] at hs
      cases stQ with
      | nil => exact Except.noConfusion hs
      | cons b st2 =>
        simp only at hs
        cases hinner : scanBr (Q.drop (k + 1)) (k + 1) st2 with
        | error j =>
          rw [hinner] at hs
          exact Except.noConfusion hs
        | ok pr2 =>
          obtain ⟨pairs2, fin2⟩ := pr2
          rw [hinner] at hs
          simp only at hs
          injection hs with h
          injection h with h1 h2
          subst h1
          subst h2
          have hih := ih (k + 1) st2 pairs2 fin2 (by omega) (by omega) hinner
          rw [hLdrop, List.singleton_append, List.map_cons]
          simp only [scanBr_cons]
          rw [show startN segs k + 1 = startN segs (k + 1) from by
            rw [hstartsucc]; rfl, hih]
          rfl

/-- Full inversion of the resolved program in terms of its scan pairs. -/
theorem writes_inv (L : List Instr) (πs : List (Nat × Nat))
    (hsc : scanBr L 0 [] = .ok (πs, [])) :
    (∀ p q : Nat, (p, q) ∈ πs →
      (writes πs L)[p]? = some (Instr.LoopBegin q) ∧
      (writes πs L)[q]? = some (Instr.LoopEnd p)) ∧
    (∀ p t : Nat, (writes πs L)[p]? = some (Instr.LoopBegin t) → (p, t) ∈ πs) ∧
    (∀ p t : Nat, (writes πs L)[p]? = some (Instr.LoopEnd t) → (t, p) ∈ πs) ∧
    (∀ (p : Nat) (ins : Instr), (writes πs L)[p]? = some ins →
      (∀ t : Nat, ins ≠ Instr.LoopBegin t ∧ ins ≠ Instr.LoopEnd t) →
      L[p]? = some ins) ∧
    (∀ (p : Nat) (ins : Instr), L[p]? = some ins →
      (∀ t : Nat, ins ≠ Instr.LoopBegin t ∧ ins ≠ Instr.LoopEnd t) →
      (writes πs L)[p]? = some ins) := by
  obtain ⟨hA, hB, _, _, hE1, hE2⟩ :=
    scan_pairs L L 0 [] πs [] (List.drop_zero L).symm hsc (by simp) (by simp)
  have hW : ∀ q ∈ πs, (writes πs L)[q.1]? = some (.LoopBegin q.2) ∧
      (writes πs L)[q.2]? = some (.LoopEnd q.1) := by
    intro q hq
    obtain ⟨⟨tb, h1⟩, ⟨te, h2⟩, hlt, _, _⟩ := hA q hq
    exact writes_getElem_pair πs L hB q.1 q.2 hq
      (List.getElem?_eq_some.mp h1).1 (List.getElem?_eq_some.mp h2).1 (by omega)
  have hnotin : ∀ (p : Nat) (ins : Instr),
      (∀ t : Nat, ins ≠ Instr.LoopBegin t ∧ ins ≠ Instr.LoopEnd t) →
      ((writes πs L)[p]? = some ins ∨ L[p]? = some ins) →
      p ∉ πs.map Prod.fst ∧ p ∉ πs.map Prod.snd := by
    intro p ins hnb hor
    constructor
    · intro hmem
      rcases List.mem_map.mp hmem with ⟨q, hq, hq1⟩
      rcases hor with hp | hp
      · have := (hW q hq).1
        rw [hq1, hp] at this
        have h2 := Option.some.inj this
        rw [h2] at hnb
        exact (hnb q.2).1 rfl
      · obtain ⟨⟨tb, h1⟩, _, _, _, _⟩ := hA q hq
        rw [hq1, hp] at h1
        have h2 := Option.some.inj h1
        rw [h2] at hnb
        exact (hnb tb).1 rfl
    · intro hmem
      rcases List.mem_map.mp hmem with ⟨q, hq, hq2⟩
      rcases hor with hp | hp
      · have := (hW q hq).2
        rw [hq2, hp] at this
        have h2 := Option.some.inj this
        rw [h2] at hnb
        exact (hnb q.1).2 rfl
      · obtain ⟨_, ⟨te, h1⟩, _, _, _⟩ := hA q hq
        rw [hq2, hp] at h1
        have h2 := Option.some.inj h1
        rw [h2] at hnb
        exact (hnb te).2 rfl
  refine ⟨fun p q hq => hW (p, q) hq, ?_, ?_, ?_, ?_⟩
  · intro p t hp
    by_cases hpf : p ∈ πs.map Prod.fst
    · rcases List.mem_map.mp hpf with ⟨q, hq, hq1⟩
      have := (hW q hq).1
      rw [hq1, hp] at this
      rcases Option.some.inj this with h
      rcases Instr.LoopBegin.inj h with rfl
      exact hq1 ▸ hq
    · by_cases hps : p ∈ πs.map Prod.snd
      · rcases List.mem_map.mp hps with ⟨q, hq, hq2⟩
        have := (hW q hq).2
        rw [hq2, hp] at this
        exact Instr.noConfusion (Option.some.inj this)
      · rw [writes_getElem_notin πs L p hpf hps] at hp
        rcases hE1 p t (by omega) hp with hm | hm
        · exact absurd hm hpf
        · exact absurd hm (List.not_mem_nil p)
  · intro p t hp
    by_cases hps : p ∈ πs.map Prod.snd
    · rcases List.mem_map.mp hps with ⟨q, hq, hq2⟩
      have := (hW q hq).2
      rw [hq2, hp] at this
      rcases Option.some.inj this with h
      rcases Instr.LoopEnd.inj h with rfl
      exact hq2 ▸ hq
    · by_cases hpf : p ∈ πs.map Prod.fst
      · rcases List.mem_map.mp hpf with ⟨q, hq, hq1⟩
        have := (hW q hq).1
        rw [hq1, hp] at this
        exact Instr.noConfusion (Option.some.inj this)
      · rw [writes_getElem_notin πs L p hpf hps] at hp
        exact absurd (hE2 p t (by omega) hp) hps
  · intro p ins hp hnb
    obtain ⟨h1, h2⟩ := hnotin p ins hnb (Or.inl hp)
    rw [writes_getElem_notin πs L p h1 h2] at hp
    exact hp
  · intro p ins hp hnb
    obtain ⟨h1, h2⟩ := hnotin p ins hnb (Or.inr hp)
    rw [writes_getElem_notin πs L p h1 h2]
    exact hp

theorem getD_set_self {l : List Nat} {p : Nat} {v : Nat} (h : p < l.length) :
    (l.set p v).getD p 0 = v := by
  rw [List.getD_eq_getElem?_getD, List.getElem?_set_eq h]
  rfl

/-- Executing a run of `Add` instructions: the cell at the pointer gains
the sum of the deltas modulo 256 and nothing else changes. -/
theorem add_run (P : List Instr) :
    ∀ (ds : List Nat) (start : Nat) (s : BfState) (n : Nat) (out : List Nat),
      (∀ idx : Nat, idx < ds.length → P[start + idx]? = some (.Add (ds.getD idx 0))) →
      s.pc = start → s.ptr < s.mem.length →
      runFuel P n s = .ok out →
      ∃ s', iterN P ds.length s = some s' ∧ ds.length ≤ n ∧
        runFuel P (n - ds.length) s' = .ok out ∧
        s'.pc = start + ds.length ∧ s'.ptr = s.ptr ∧ s'.input = s.input ∧
        s'.output = s.output ∧ s'.mem.length = s.mem.length ∧
        (ds ≠ [] → s'.mem = s.mem.set s.ptr ((s.mem.getD s.ptr 0 + ds.sum) % 256)) ∧
        (ds = [] → s'.mem = s.mem) := by
  intro ds
  induction ds with
  | nil =>
    intro start s n out _ hpc _ hrun
    refine ⟨s, rfl, ?_, ?_, ?_, rfl, rfl, rfl, rfl, fun hx => absurd rfl hx, fun _ => rfl⟩
    · simp
    · simpa using hrun
    · simp [hpc]
  | cons d ds2 ih =>
    intro start s n out hseg hpc hptr hrun
    have hfetch : P[s.pc]? = some (.Add d) := by
      have := hseg 0 (by simp)
      rw [Nat.add_zero] at this
      rw [hpc]
      exact this
    have hstep := step_add hfetch hptr
    rcases (runFuel_ok_cases hrun).2 with ⟨hhalt, _⟩ | ⟨s1, hstep', hrun1⟩
    · rw [hstep] at hhalt
      exact StepResult.noConfusion hhalt
    · rw [hstep] at hstep'
      have hs1 := (StepResult.next.inj hstep').symm
      have hn1 := (runFuel_ok_cases hrun).1
      have hseg2 : ∀ idx : Nat, idx < ds2.length →
          P[(start + 1) + idx]? = some (.Add (ds2.getD idx 0)) := by
        intro idx hidx
        have := hseg (idx + 1) (by rw [List.length_cons]; omega)
        rw [show start + (idx + 1) = start + 1 + idx from by omega] at this
        exact this
      have hpc1 : s1.pc = start + 1 := by rw [hs1, hpc]
      have hptr1 : s1.ptr < s1.mem.length := by
        rw [hs1]
        simp only [List.length_set]
        exact hptr
      rcases ih (start + 1) s1 (n - 1) out hseg2 hpc1 hptr1 hrun1
        with ⟨s', hit, hle, hrun', hpc', hptr', hinp', hout', hlen', hmem', hnil'⟩
      refine ⟨s', ?_, ?_, ?_, ?_, ?_, ?_, ?_, ?_, ?_, ?_⟩
      · rw [List.length_cons, iterN_next hstep]
        exact hs1 ▸ hit
      · rw [List.length_cons]; omega
      · rw [List.length_cons, show n - (ds2.length + 1) = n - 1 - ds2.length from by omega]
        exact hrun'
      · rw [hpc', List.length_cons]; omega
      · rw [hptr', hs1]
      · rw [hinp', hs1]
      · rw [hout', hs1]
      · rw [hlen', hs1]
        simp only [List.length_set]
      · intro _
        by_cases hds2 : ds2 = []
        · rw [hnil' hds2, hs1]
          show s.mem.set s.ptr ((s.mem.getD s.ptr 0 + d) % 256) = _
          rw [hds2, List.sum_cons, List.sum_nil]
          congr 1
          try omega
        · rw [hmem' hds2, hs1]
          show (s.mem.set s.ptr ((s.mem.getD s.ptr 0 + d) % 256)).set s.ptr
            ((((s.mem.set s.ptr ((s.mem.getD s.ptr 0 + d) % 256)).getD s.ptr 0) + ds2.sum) % 256) = _
          rw [List.set_set, getD_set_self hptr]
          congr 1
          rw [List.sum_cons]
          omega
      · intro hx
        exact absurd hx (by exact fun hh => List.noConfusion hh)

/-- Executing a run of `Move` instructions when the tape is at its initial
capacity and the pointer provably stays inside it: the pointer moves by the
sum of the deltas and the tape is untouched. -/
theorem ptr_run (P : List Instr) :
    ∀ (ds : List Int) (start : Nat) (s : BfState) (n : Nat) (out : List Nat),
      (∀ idx : Nat, idx < ds.length → P[start + idx]? = some (.Ptr (ds.getD idx 0))) →
      s.pc = start → s.mem.length = INITIAL_CAPACITY →
      (∀ (m : Nat) (s2 : BfState), iterN P m s = some s2 → s2.ptr < INITIAL_CAPACITY) →
      runFuel P n s = .ok out →
      ∃ s', iterN P ds.length s = some s' ∧ ds.length ≤ n ∧
        runFuel P (n - ds.length) s' = .ok out ∧
        s'.pc = start + ds.length ∧ (s'.ptr : Int) = (s.ptr : Int) + ds.sum ∧
        s'.mem = s.mem ∧ s'.input = s.input ∧ s'.output = s.output := by
  intro ds
  induction ds with
  | nil =>
    intro start s n out _ hpc _ _ hrun
    refine ⟨s, rfl, ?_, ?_, ?_, ?_, rfl, rfl, rfl⟩
    · simp
    · simpa using hrun
    · simp [hpc]
    · simp
  | cons d ds2 ih =>
    intro start s n out hseg hpc hmemlen hbound hrun
    have hfetch : P[s.pc]? = some (.Ptr d) := by
      have := hseg 0 (by simp)
      rw [Nat.add_zero] at this
      rw [hpc]
      exact this
    rcases (runFuel_ok_cases hrun).2 with ⟨hhalt, _⟩ | ⟨s1, hstep', hrun1⟩
    · exact absurd hhalt (step_ne_halt hfetch)
    · have hn1 := (runFuel_ok_cases hrun).1
      have hreach1 : iterN P 1 s = some s1 := by
        rw [iterN_succ, hstep']
        rfl
      have hptr1lt : s1.ptr < INITIAL_CAPACITY := hbound 1 s1 hreach1
      -- characterize s1 by the sign of d
      have hchar : s1.pc = s.pc + 1 ∧ (s1.ptr : Int) = (s.ptr : Int) + d ∧
          s1.mem = s.mem ∧ s1.input = s.input ∧ s1.output = s.output := by
        by_cases hd : 0 ≤ d
        · by_cases hov : s.ptr + d.toNat ≤ USIZE_MAX
          · rw [step_ptr_nonneg hfetch hd hov] at hstep'
            have hs1 := (StepResult.next.inj hstep').symm
            have hnogrow : ¬ s.mem.length ≤ s.ptr + d.toNat := by
              have : s1.ptr = s.ptr + d.toNat := by rw [hs1]
              omega
            rw [hs1]
            refine ⟨rfl, ?_, ?_, rfl, rfl⟩
            · show ((s.ptr + d.toNat : Nat) : Int) = (s.ptr : Int) + d
              omega
            · show (if s.mem.length ≤ s.ptr + d.toNat then s.mem ++ [0] else s.mem) = s.mem
              rw [if_neg hnogrow]
          · rw [step_ptr_overflow hfetch hd hov] at hstep'
            exact StepResult.noConfusion hstep'
        · by_cases hun : (-d).toNat ≤ s.ptr
          · rw [step_ptr_neg hfetch hd hun] at hstep'
            have hs1 := (StepResult.next.inj hstep').symm
            have hnogrow : ¬ s.mem.length ≤ s.ptr - (-d).toNat := by
              have : s1.ptr = s.ptr - (-d).toNat := by rw [hs1]
              omega
            rw [hs1]
            refine ⟨rfl, ?_, ?_, rfl, rfl⟩
            · show ((s.ptr - (-d).toNat : Nat) : Int) = (s.ptr : Int) + d
              omega
            · show (if s.mem.length ≤ s.ptr - (-d).toNat then s.mem ++ [0] else s.mem) = s.mem
              rw [if_neg hnogrow]
          · rw [step_ptr_underflow hfetch hd hun] at hstep'
            exact StepResult.noConfusion hstep'
      obtain ⟨hpc1, hptr1, hmem1, hinp1, hout1⟩ := hchar
      have hseg2 : ∀ idx : Nat, idx < ds2.length →
          P[(start + 1) + idx]? = some (.Ptr (ds2.getD idx 0)) := by
        intro idx hidx
        have := hseg (idx + 1) (by rw [List.length_cons]; omega)
        rw [show start + (idx + 1) = start + 1 + idx from by omega] at this
        exact this
      have hbound1 : ∀ (m : Nat) (s2 : BfState), iterN P m s1 = some s2 →
          s2.ptr < INITIAL_CAPACITY := by
        intro m s2 hm
        refine hbound (1 + m) s2 ?_
        rw [iterN_comp 1 hreach1 m]
        exact hm
      rcases ih (start + 1) s1 (n - 1) out hseg2 (by rw [hpc1, hpc])
          (by rw [hmem1]; exact hmemlen) hbound1 hrun1
        with ⟨s', hit, hle, hrun', hpc', hptr', hmem', hinp', hout'⟩
      refine ⟨s', ?_, ?_, ?_, ?_, ?_, ?_, ?_, ?_⟩
      · rw [List.length_cons, iterN_next hstep']
        exact hit
      · rw [List.length_cons]; omega
      · rw [List.length_cons, show n - (ds2.length + 1) = n - 1 - ds2.length from by omega]
        exact hrun'
      · rw [hpc', List.length_cons]; omega
      · rw [hptr', hptr1, List.sum_cons]
        omega
      · rw [hmem', hmem1]
      · rw [hinp', hinp1]
      · rw [hout', hout1]

theorem runFuel_build_next {prog : List Instr} {s s1 : BfState} {fuel : Nat} {out : List Nat}
    (h : step prog s = .next s1) (hr : runFuel prog fuel s1 = .ok out) :
    runFuel prog (fuel + 1) s = .ok out := by
  rw [runFuel_succ, h]
  exact hr

theorem runFuel_build_halt {prog : List Instr} {s : BfState}
    (h : step prog s = .halt) : runFuel prog 1 s = .ok s.output := by
  rw [runFuel_succ, h]

theorem nonbr_add (a : Nat) :
    ∀ t : Nat, Instr.Add a ≠ Instr.LoopBegin t ∧ Instr.Add a ≠ Instr.LoopEnd t :=
  fun _ => ⟨fun hx => Instr.noConfusion hx, fun hx => Instr.noConfusion hx⟩

theorem nonbr_ptr (d : Int) :
    ∀ t : Nat, Instr.Ptr d ≠ Instr.LoopBegin t ∧ Instr.Ptr d ≠ Instr.LoopEnd t :=
  fun _ => ⟨fun hx => Instr.noConfusion hx, fun hx => Instr.noConfusion hx⟩

theorem nonbr_out :
    ∀ t : Nat, Instr.Out ≠ Instr.LoopBegin t ∧ Instr.Out ≠ Instr.LoopEnd t :=
  fun _ => ⟨fun hx => Instr.noConfusion hx, fun hx => Instr.noConfusion hx⟩

theorem nonbr_in :
    ∀ t : Nat, Instr.In ≠ Instr.LoopBegin t ∧ Instr.In ≠ Instr.LoopEnd t :=
  fun _ => ⟨fun hx => Instr.noConfusion hx, fun hx => Instr.noConfusion hx⟩

theorem chunk_singleton_at {segs : List (List Instr)} {L : List Instr}
    (hfl : segs.flatten = L) {k : Nat} (hklt : k < segs.length) {q : Instr}
    (hsgD : segs.getD k [] = [q]) :
    L[startN segs k]? = some q := by
  have h := flatten_getElem segs k hklt 0 (by rw [hsgD]; simp)
  rw [Nat.add_zero] at h
  rw [← hfl, h, hsgD]
  rfl

/-- Main simulation: a successful run of the resolved primitive program
whose pointer stays inside the initial tape capacity is matched, block by
block, by a successful run of the resolved coalesced program with the same
output. -/
theorem sim_main (C L Q P : List Instr) (segs : List (List Instr))
    (πs : List (Nat × Nat)) (input : List InEvent)
    (hch : Chunked C segs) (hfl : segs.flatten = L)
    (hsc : scanBr C 0 [] = .ok (πs, []))
    (hQ : Q = writes πs C)
    (hP : P = writes (πs.map fun p => (startN segs p.1, startN segs p.2)) L)
    (hbound : ∀ (m : Nat) (s2 : BfState), iterN P m (initState input) = some s2 →
      s2.ptr < INITIAL_CAPACITY) :
    ∀ (n : Nat) (sQ sP : BfState) (k m0 : Nat) (out : List Nat),
      k ≤ segs.length → sQ.pc = k → sP.pc = startN segs k →
      sP.mem = sQ.mem → sQ.mem.length = INITIAL_CAPACITY →
      sP.ptr = sQ.ptr → sP.input = sQ.input → sP.output = sQ.output →
      iterN P m0 (initState input) = some sP →
      runFuel P n sP = .ok out →
      ∃ fuel, runFuel Q fuel sQ = .ok out := by
  have hscL : scanBr L 0 [] =
      .ok (πs.map fun p => (startN segs p.1, startN segs p.2), []) := by
    have h := chunked_scan hch segs.length 0 [] πs [] (by omega) (by omega)
      (by rw [List.drop_zero]; exact hsc)
    rw [show startN segs 0 = 0 from rfl, List.drop_zero, List.map_nil, hfl] at h
    exact h
  have hCsegs : C.length = segs.length := chunked_length hch
  have hQlen : Q.length = C.length := by rw [hQ, writes_length]
  have hPlen : P.length = L.length := by rw [hP, writes_length]
  have hLstart : L.length = startN segs segs.length := by
    rw [← hfl, startN_full]
  obtain ⟨hWC, hBC, hEC, hfwdC, hbwdC⟩ := writes_inv C πs hsc
  obtain ⟨hWL, hBL, hEL, hfwdL, hbwdL⟩ :=
    writes_inv L (πs.map fun p => (startN segs p.1, startN segs p.2)) hscL
  obtain ⟨hA, hBnd, hCnest, hDst, hE1, hE2⟩ :=
    scan_pairs C C 0 [] πs [] (List.drop_zero C).symm hsc (by simp) (by simp)
  intro n
  induction n using Nat.strong_induction_on with
  | _ n ih =>
    intro sQ sP k m0 out hk hpcQ hpcP hmem hcap hptr hinp hout hreach hrun
    by_cases hkend : k = segs.length
    · -- both program counters are at the end: both runs halt
      subst hkend
      have hhaltP : step P sP = .halt :=
        step_none (List.getElem?_eq_none (by rw [hpcP, ← hLstart, hPlen]))
      rcases (runFuel_ok_cases hrun).2 with ⟨_, houtp⟩ | ⟨s1, hstep', _⟩
      · refine ⟨1, ?_⟩
        have hhaltQ : step Q sQ = .halt :=
          step_none (List.getElem?_eq_none (by rw [hpcQ, hQlen, hCsegs]))
        rw [runFuel_build_halt hhaltQ, houtp, hout]
      · rw [hhaltP] at hstep'
        exact StepResult.noConfusion hstep'
    · have hklt : k < segs.length := by omega
      have hkC : k < C.length := by omega
      have hCk : C[k]? = some C[k] := List.getElem?_eq_getElem hkC
      rcases chunked_get hch k C[k] hCk with ⟨sg, hsg, hsm⟩
      have hsgD : segs.getD k [] = sg := by
        rw [List.getD_eq_getElem?_getD, hsg]
        rfl
      have hstart1 : startN segs (k + 1) = startN segs k + sg.length := by
        rw [startN_succ segs k hklt, hsgD]
      have hptrlt : sQ.ptr < INITIAL_CAPACITY := by
        have := hbound m0 sP hreach
        omega
      have hptrQ : sQ.ptr < sQ.mem.length := by omega
      have hptrP : sP.ptr < sP.mem.length := by rw [hmem, hptr]; exact hptrQ
      cases hq : C[k] with
      | Add a =>
        rw [hq] at hCk hsm
        rcases hsm with ⟨ds, hdsne, hsgeq, hdsum⟩
        have hds1 : 0 < ds.length := List.length_pos.mpr hdsne
        have hseg : ∀ idx : Nat, idx < ds.length →
            P[startN segs k + idx]? = some (Instr.Add (ds.getD idx 0)) := by
          intro idx hidx
          have hidx' : idx < (segs.getD k []).length := by
            rw [hsgD, hsgeq, List.length_map]
            exact hidx
          have hLi : L[startN segs k + idx]? = some (Instr.Add (ds.getD idx 0)) := by
            rw [← hfl, flatten_getElem segs k hklt idx hidx', hsgD, hsgeq,
              List.getElem?_map, List.getElem?_eq_getElem hidx,
              List.getD_eq_getElem ds 0 hidx]
            rfl
          rw [hP]
          exact hbwdL _ _ hLi (nonbr_add _)
        obtain ⟨sP', hitP, hlen_le, hrunP', hpcP', hptrP', hinpP', houtP', hlenP',
          hmemP', _⟩ := add_run P ds (startN segs k) sP n out hseg hpcP hptrP hrun
        have hreach' : iterN P (m0 + ds.length) (initState input) = some sP' := by
          rw [iterN_comp m0 hreach]
          exact hitP
        have hQk : Q[sQ.pc]? = some (Instr.Add a) := by
          rw [hpcQ, hQ]
          exact hbwdC k _ hCk (nonbr_add a)
        have hstepQ := step_add hQk hptrQ
        obtain ⟨sQ', hsQ'⟩ : ∃ t, t = ({ sQ with
            mem := sQ.mem.set sQ.ptr ((sQ.mem.getD sQ.ptr 0 + a) % 256),
            pc := sQ.pc + 1 } : BfState) := ⟨_, rfl⟩
        rw [← hsQ'] at hstepQ
        have hQ'pc : sQ'.pc = sQ.pc + 1 := by rw [hsQ']
        have hQ'mem : sQ'.mem = sQ.mem.set sQ.ptr ((sQ.mem.getD sQ.ptr 0 + a) % 256) := by
          rw [hsQ']
        have hQ'ptr : sQ'.ptr = sQ.ptr := by rw [hsQ']
        have hQ'inp : sQ'.input = sQ.input := by rw [hsQ']
        have hQ'out : sQ'.output = sQ.output := by rw [hsQ']
        rcases ih (n - ds.length) (by omega) sQ' sP' (k + 1) (m0 + ds.length) out
          (by omega)
          (by omega)
          (by rw [hpcP', hstart1, hsgeq, List.length_map])
          (by rw [hmemP' hdsne, hQ'mem, hmem, hptr]; congr 1; omega)
          (by rw [hQ'mem, List.length_set]; exact hcap)
          (by rw [hptrP', hptr, hQ'ptr])
          (by rw [hinpP', hinp, hQ'inp])
          (by rw [houtP', hout, hQ'out])
          hreach' hrunP' with ⟨fuel, hfuel⟩
        exact ⟨fuel + 1, runFuel_build_next hstepQ hfuel⟩
      | Ptr d =>
        rw [hq] at hCk hsm
        rcases hsm with ⟨ds, hdsne, hsgeq, hdsum⟩
        have hds1 : 0 < ds.length := List.length_pos.mpr hdsne
        have hseg : ∀ idx : Nat, idx < ds.length →
            P[startN segs k + idx]? = some (Instr.Ptr (ds.getD idx 0)) := by
          intro idx hidx
          have hidx' : idx < (segs.getD k []).length := by
            rw [hsgD, hsgeq, List.length_map]
            exact hidx
          have hLi : L[startN segs k + idx]? = some (Instr.Ptr (ds.getD idx 0)) := by
            rw [← hfl, flatten_getElem segs k hklt idx hidx', hsgD, hsgeq,
              List.getElem?_map, List.getElem?_eq_getElem hidx,
              List.getD_eq_getElem ds 0 hidx]
            rfl
          rw [hP]
          exact hbwdL _ _ hLi (nonbr_ptr _)
        have hboundP' : ∀ (m : Nat) (s2 : BfState), iterN P m sP = some s2 →
            s2.ptr < INITIAL_CAPACITY := by
          intro m s2 hm
          refine hbound (m0 + m) s2 ?_
          rw [iterN_comp m0 hreach]
          exact hm
        have hmemlenP : sP.mem.length = INITIAL_CAPACITY := by rw [hmem]; exact hcap
        obtain ⟨sP', hitP, hlen_le, hrunP', hpcP', hptrP', hmemP', hinpP', houtP'⟩ :=
          ptr_run P ds (startN segs k) sP n out hseg hpcP hmemlenP hboundP' hrun
        have hreach' : iterN P (m0 + ds.length) (initState input) = some sP' := by
          rw [iterN_comp m0 hreach]
          exact hitP
        have hptr'lt : sP'.ptr < INITIAL_CAPACITY := hbound _ _ hreach'
        have hQk : Q[sQ.pc]? = some (Instr.Ptr d) := by
          rw [hpcQ, hQ]
          exact hbwdC k _ hCk (nonbr_ptr d)
        have hPtrInt : (sP'.ptr : Int) = (sQ.ptr : Int) + d := by
          rw [hptrP', hptr, hdsum]
        have hcapmax : INITIAL_CAPACITY ≤ USIZE_MAX := by
          norm_num [INITIAL_CAPACITY, USIZE_MAX]
        obtain ⟨sQ', hstepQ, hQ'pc, hQ'ptr, hQ'mem, hQ'inp, hQ'out⟩ :
            ∃ sQ', step Q sQ = .next sQ' ∧ sQ'.pc = sQ.pc + 1 ∧ sQ'.ptr = sP'.ptr ∧
              sQ'.mem = sQ.mem ∧ sQ'.input = sQ.input ∧ sQ'.output = sQ.output := by
          by_cases hd : 0 ≤ d
          · have hov : sQ.ptr + d.toNat ≤ USIZE_MAX := by omega
            refine ⟨_, step_ptr_nonneg hQk hd hov, rfl, ?_, ?_, rfl, rfl⟩
            · show sQ.ptr + d.toNat = sP'.ptr
              omega
            · show (if sQ.mem.length ≤ sQ.ptr + d.toNat then sQ.mem ++ [0] else sQ.mem)
                = sQ.mem
              rw [if_neg (by omega)]
          · have hun : (-d).toNat ≤ sQ.ptr := by omega
            refine ⟨_, step_ptr_neg hQk hd hun, rfl, ?_, ?_, rfl, rfl⟩
            · show sQ.ptr - (-d).toNat = sP'.ptr
              omega
            · show (if sQ.mem.length ≤ sQ.ptr - (-d).toNat then sQ.mem ++ [0] else sQ.mem)
                = sQ.mem
              rw [if_neg (by omega)]
        rcases ih (n - ds.length) (by omega) sQ' sP' (k + 1) (m0 + ds.length) out
          (by omega)
          (by omega)
          (by rw [hpcP', hstart1, hsgeq, List.length_map])
          (by rw [hmemP', hmem, hQ'mem])
          (by rw [hQ'mem]; exact hcap)
          (by rw [hQ'ptr])
          (by rw [hinpP', hinp, hQ'inp])
          (by rw [houtP', hout, hQ'out])
          hreach' hrunP' with ⟨fuel, hfuel⟩
        exact ⟨fuel + 1, runFuel_build_next hstepQ hfuel⟩
      | LoopBegin t0 =>
        rw [hq] at hCk hsm
        have hsgeq : sg = [Instr.LoopBegin t0] := hsm
        have hsg1 : startN segs (k + 1) = startN segs k + 1 := by
          rw [hstart1, hsgeq, List.length_singleton]
        have hkfst : k ∈ πs.map Prod.fst := by
          rcases hE1 k t0 (Nat.zero_le k) hCk with h | h
          · exact h
          · exact absurd h (List.not_mem_nil k)
        rcases List.mem_map.mp hkfst with ⟨pr, hpr, hpr1⟩
        obtain ⟨b0, e⟩ := pr
        have hb0 : k = b0 := hpr1.symm
        subst hb0
        have hQk : Q[sQ.pc]? = some (Instr.LoopBegin e) := by
          rw [hpcQ, hQ]
          exact (hWC k e hpr).1
        obtain ⟨⟨tb, hCb⟩, ⟨te, hCe⟩, hblt, _, _⟩ := hA (k, e) hpr
        have heC : e < C.length := (List.getElem?_eq_some.mp hCe).1
        have heS : e < segs.length := by omega
        have hPk : P[sP.pc]? = some (Instr.LoopBegin (startN segs e)) := by
          rw [hpcP, hP]
          exact (hWL _ _ (List.mem_map.mpr ⟨(k, e), hpr, rfl⟩)).1
        have hcell : sP.mem.getD sP.ptr 0 = sQ.mem.getD sQ.ptr 0 := by rw [hmem, hptr]
        have hstepP := step_loopbegin hPk hptrP
        have hstepQ := step_loopbegin hQk hptrQ
        rcases (runFuel_ok_cases hrun).2 with ⟨hh, _⟩ | ⟨s1, hstep', hrun1⟩
        · rw [hstepP] at hh
          exact StepResult.noConfusion hh
        rw [hstepP] at hstep'
        have hs1 := (StepResult.next.inj hstep').symm
        have hn1 : 1 ≤ n := (runFuel_ok_cases hrun).1
        have hreach1 : iterN P (m0 + 1) (initState input) = some s1 := by
          rw [iterN_comp m0 hreach, iterN_succ, hstepP]
          exact congrArg some hs1.symm
        have hs1mem : s1.mem = sP.mem := by rw [hs1]
        have hs1ptr : s1.ptr = sP.ptr := by rw [hs1]
        have hs1inp : s1.input = sP.input := by rw [hs1]
        have hs1out : s1.output = sP.output := by rw [hs1]
        obtain ⟨sQ', hsQ'⟩ : ∃ t, t = ({ sQ with
            pc := (if sQ.mem.getD sQ.ptr 0 = 0 then e else sQ.pc) + 1 } : BfState) :=
          ⟨_, rfl⟩
        rw [← hsQ'] at hstepQ
        have hQ'mem : sQ'.mem = sQ.mem := by rw [hsQ']
        have hQ'ptr : sQ'.ptr = sQ.ptr := by rw [hsQ']
        have hQ'inp : sQ'.input = sQ.input := by rw [hsQ']
        have hQ'out : sQ'.output = sQ.output := by rw [hsQ']
        by_cases hg : sQ.mem.getD sQ.ptr 0 = 0
        · -- the cell is zero: both sides jump to just past the matching bracket
          have hgP : sP.mem.getD sP.ptr 0 = 0 := by rw [hcell]; exact hg
          have hQ'pc : sQ'.pc = e + 1 := by
            rw [hsQ']
            show (if sQ.mem.getD sQ.ptr 0 = 0 then e else sQ.pc) + 1 = e + 1
            rw [if_pos hg]
          have hs1pc : s1.pc = startN segs e + 1 := by
            rw [hs1]
            show (if sP.mem.getD sP.ptr 0 = 0 then startN segs e else sP.pc) + 1
              = startN segs e + 1
            rw [if_pos hgP]
          rcases chunked_get hch e (Instr.LoopEnd te) hCe with ⟨sge, hsge, hsme⟩
          have hsgeeq : sge = [Instr.LoopEnd te] := hsme
          have hsgeD : segs.getD e [] = [Instr.LoopEnd te] := by
            rw [List.getD_eq_getElem?_getD, hsge]
            exact hsgeeq
          have hsge1 : startN segs (e + 1) = startN segs e + 1 := by
            rw [startN_succ segs e heS, hsgeD, List.length_singleton]
          rcases ih (n - 1) (by omega) sQ' s1 (e + 1) (m0 + 1) out
            (by omega)
            (by omega)
            (by rw [hs1pc, hsge1])
            (by rw [hs1mem, hmem, hQ'mem])
            (by rw [hQ'mem]; exact hcap)
            (by rw [hs1ptr, hptr, hQ'ptr])
            (by rw [hs1inp, hinp, hQ'inp])
            (by rw [hs1out, hout, hQ'out])
            hreach1 hrun1 with ⟨fuel, hfuel⟩
          exact ⟨fuel + 1, runFuel_build_next hstepQ hfuel⟩
        · -- the cell is nonzero: both sides fall through into the loop body
          have hgP : ¬ sP.mem.getD sP.ptr 0 = 0 := by rw [hcell]; exact hg
          have hQ'pc : sQ'.pc = sQ.pc + 1 := by
            rw [hsQ']
            show (if sQ.mem.getD sQ.ptr 0 = 0 then e else sQ.pc) + 1 = sQ.pc + 1
            rw [if_neg hg]
          have hs1pc : s1.pc = sP.pc + 1 := by
            rw [hs1]
            show (if sP.mem.getD sP.ptr 0 = 0 then startN segs e else sP.pc) + 1
              = sP.pc + 1
            rw [if_neg hgP]
          rcases ih (n - 1) (by omega) sQ' s1 (k + 1) (m0 + 1) out
            (by omega)
            (by omega)
            (by rw [hs1pc, hpcP, hsg1])
            (by rw [hs1mem, hmem, hQ'mem])
            (by rw [hQ'mem]; exact hcap)
            (by rw [hs1ptr, hptr, hQ'ptr])
            (by rw [hs1inp, hinp, hQ'inp])
            (by rw [hs1out, hout, hQ'out])
            hreach1 hrun1 with ⟨fuel, hfuel⟩
          exact ⟨fuel + 1, runFuel_build_next hstepQ hfuel⟩
      | LoopEnd t0 =>
        rw [hq] at hCk hsm
        have hsgeq : sg = [Instr.LoopEnd t0] := hsm
        have hsg1 : startN segs (k + 1) = startN segs k + 1 := by
          rw [hstart1, hsgeq, List.length_singleton]
        have hksnd : k ∈ πs.map Prod.snd := hE2 k t0 (Nat.zero_le k) hCk
        rcases List.mem_map.mp hksnd with ⟨pr, hpr, hpr2⟩
        obtain ⟨b, e0⟩ := pr
        have he0 : k = e0 := hpr2.symm
        subst he0
        have hQk : Q[sQ.pc]? = some (Instr.LoopEnd b) := by
          rw [hpcQ, hQ]
          exact (hWC b k hpr).2
        obtain ⟨⟨tb, hCb⟩, ⟨te, hCe⟩, hblt, _, _⟩ := hA (b, k) hpr
        have hbC : b < C.length := (List.getElem?_eq_some.mp hCb).1
        have hbS : b < segs.length := by omega
        have hPk : P[sP.pc]? = some (Instr.LoopEnd (startN segs b)) := by
          rw [hpcP, hP]
          exact (hWL _ _ (List.mem_map.mpr ⟨(b, k), hpr, rfl⟩)).2
        have hcell : sP.mem.getD sP.ptr 0 = sQ.mem.getD sQ.ptr 0 := by rw [hmem, hptr]
        have hstepP := step_loopend hPk hptrP
        have hstepQ := step_loopend hQk hptrQ
        rcases (runFuel_ok_cases hrun).2 with ⟨hh, _⟩ | ⟨s1, hstep', hrun1⟩
        · rw [hstepP] at hh
          exact StepResult.noConfusion hh
        rw [hstepP] at hstep'
        have hs1 := (StepResult.next.inj hstep').symm
        have hn1 : 1 ≤ n := (runFuel_ok_cases hrun).1
        have hreach1 : iterN P (m0 + 1) (initState input) = some s1 := by
          rw [iterN_comp m0 hreach, iterN_succ, hstepP]
          exact congrArg some hs1.symm
        have hs1mem : s1.mem = sP.mem := by rw [hs1]
        have hs1ptr : s1.ptr = sP.ptr := by rw [hs1]
        have hs1inp : s1.input = sP.input := by rw [hs1]
        have hs1out : s1.output = sP.output := by rw [hs1]
        obtain ⟨sQ', hsQ'⟩ : ∃ t, t = ({ sQ with
            pc := (if sQ.mem.getD sQ.ptr 0 ≠ 0 then b else sQ.pc) + 1 } : BfState) :=
          ⟨_, rfl⟩
        rw [← hsQ'] at hstepQ
        have hQ'mem : sQ'.mem = sQ.mem := by rw [hsQ']
        have hQ'ptr : sQ'.ptr = sQ.ptr := by rw [hsQ']
        have hQ'inp : sQ'.input = sQ.input := by rw [hsQ']
        have hQ'out : sQ'.output = sQ.output := by rw [hsQ']
        by_cases hg : sQ.mem.getD sQ.ptr 0 = 0
        · -- the cell is zero: both sides fall through out of the loop
          have hgP : sP.mem.getD sP.ptr 0 = 0 := by rw [hcell]; exact hg
          have hQ'pc : sQ'.pc = sQ.pc + 1 := by
            rw [hsQ']
            show (if sQ.mem.getD sQ.ptr 0 ≠ 0 then b else sQ.pc) + 1 = sQ.pc + 1
            rw [if_neg (by omega)]
          have hs1pc : s1.pc = sP.pc + 1 := by
            rw [hs1]
            show (if sP.mem.getD sP.ptr 0 ≠ 0 then startN segs b else sP.pc) + 1
              = sP.pc + 1
            rw [if_neg (by omega)]
          rcases ih (n - 1) (by omega) sQ' s1 (k + 1) (m0 + 1) out
            (by omega)
            (by omega)
            (by rw [hs1pc, hpcP, hsg1])
            (by rw [hs1mem, hmem, hQ'mem])
            (by rw [hQ'mem]; exact hcap)
            (by rw [hs1ptr, hptr, hQ'ptr])
            (by rw [hs1inp, hinp, hQ'inp])
            (by rw [hs1out, hout, hQ'out])
            hreach1 hrun1 with ⟨fuel, hfuel⟩
          exact ⟨fuel + 1, runFuel_build_next hstepQ hfuel⟩
        · -- the cell is nonzero: both sides jump back past the opening bracket
          have hgP : ¬ sP.mem.getD sP.ptr 0 = 0 := by rw [hcell]; exact hg
          have hQ'pc : sQ'.pc = b + 1 := by
            rw [hsQ']
            show (if sQ.mem.getD sQ.ptr 0 ≠ 0 then b else sQ.pc) + 1 = b + 1
            rw [if_pos hg]
          have hs1pc : s1.pc = startN segs b + 1 := by
            rw [hs1]
            show (if sP.mem.getD sP.ptr 0 ≠ 0 then startN segs b else sP.pc) + 1
              = startN segs b + 1
            rw [if_pos hgP]
          rcases chunked_get hch b (Instr.LoopBegin tb) hCb with ⟨sgb, hsgb, hsmb⟩
          have hsgbeq : sgb = [Instr.LoopBegin tb] := hsmb
          have hsgbD : segs.getD b [] = [Instr.LoopBegin tb] := by
            rw [List.getD_eq_getElem?_getD, hsgb]
            exact hsgbeq
          have hsgb1 : startN segs (b + 1) = startN segs b + 1 := by
            rw [startN_succ segs b hbS, hsgbD, List.length_singleton]
          rcases ih (n - 1) (by omega) sQ' s1 (b + 1) (m0 + 1) out
            (by omega)
            (by omega)
            (by rw [hs1pc, hsgb1])
            (by rw [hs1mem, hmem, hQ'mem])
            (by rw [hQ'mem]; exact hcap)
            (by rw [hs1ptr, hptr, hQ'ptr])
            (by rw [hs1inp, hinp, hQ'inp])
            (by rw [hs1out, hout, hQ'out])
            hreach1 hrun1 with ⟨fuel, hfuel⟩
          exact ⟨fuel + 1, runFuel_build_next hstepQ hfuel⟩
      | Out =>
        rw [hq] at hCk hsm
        have hsgeq : sg = [Instr.Out] := hsm
        have hsg1 : startN segs (k + 1) = startN segs k + 1 := by
          rw [hstart1, hsgeq, List.length_singleton]
        have hQk : Q[sQ.pc]? = some Instr.Out := by
          rw [hpcQ, hQ]
          exact hbwdC k _ hCk nonbr_out
        have hLk : L[startN segs k]? = some Instr.Out :=
          chunk_singleton_at hfl hklt (by rw [hsgD, hsgeq])
        have hPk : P[sP.pc]? = some Instr.Out := by
          rw [hpcP, hP]
          exact hbwdL _ _ hLk nonbr_out
        have hcell : sP.mem.getD sP.ptr 0 = sQ.mem.getD sQ.ptr 0 := by rw [hmem, hptr]
        have hstepP := step_out hPk hptrP
        have hstepQ := step_out hQk hptrQ
        rcases (runFuel_ok_cases hrun).2 with ⟨hh, _⟩ | ⟨s1, hstep', hrun1⟩
        · rw [hstepP] at hh
          exact StepResult.noConfusion hh
        rw [hstepP] at hstep'
        have hs1 := (StepResult.next.inj hstep').symm
        have hn1 : 1 ≤ n := (runFuel_ok_cases hrun).1
        have hreach1 : iterN P (m0 + 1) (initState input) = some s1 := by
          rw [iterN_comp m0 hreach, iterN_succ, hstepP]
          exact congrArg some hs1.symm
        have hs1mem : s1.mem = sP.mem := by rw [hs1]
        have hs1ptr : s1.ptr = sP.ptr := by rw [hs1]
        have hs1inp : s1.input = sP.input := by rw [hs1]
        have hs1out : s1.output = sP.output ++ utf8Encode (sP.mem.getD sP.ptr 0) := by
          rw [hs1]
        have hs1pc : s1.pc = sP.pc + 1 := by rw [hs1]
        obtain ⟨sQ', hsQ'⟩ : ∃ t, t = ({ sQ with
            output := sQ.output ++ utf8Encode (sQ.mem.getD sQ.ptr 0),
            pc := sQ.pc + 1 } : BfState) := ⟨_, rfl⟩
        rw [← hsQ'] at hstepQ
        have hQ'pc : sQ'.pc = sQ.pc + 1 := by rw [hsQ']
        have hQ'mem : sQ'.mem = sQ.mem := by rw [hsQ']
        have hQ'ptr : sQ'.ptr = sQ.ptr := by rw [hsQ']
        have hQ'inp : sQ'.input = sQ.input := by rw [hsQ']
        have hQ'out : sQ'.output = sQ.output ++ utf8Encode (sQ.mem.getD sQ.ptr 0) := by
          rw [hsQ']
        rcases ih (n - 1) (by omega) sQ' s1 (k + 1) (m0 + 1) out
          (by omega)
          (by omega)
          (by rw [hs1pc, hpcP, hsg1])
          (by rw [hs1mem, hmem, hQ'mem])
          (by rw [hQ'mem]; exact hcap)
          (by rw [hs1ptr, hptr, hQ'ptr])
          (by rw [hs1inp, hinp, hQ'inp])
          (by rw [hs1out, hout, hcell, hQ'out])
          hreach1 hrun1 with ⟨fuel, hfuel⟩
        exact ⟨fuel + 1, runFuel_build_next hstepQ hfuel⟩
      | In =>
        rw [hq] at hCk hsm
        have hsgeq : sg = [Instr.In] := hsm
        have hsg1 : startN segs (k + 1) = startN segs k + 1 := by
          rw [hstart1, hsgeq, List.length_singleton]
        have hQk : Q[sQ.pc]? = some Instr.In := by
          rw [hpcQ, hQ]
          exact hbwdC k _ hCk nonbr_in
        have hLk : L[startN segs k]? = some Instr.In :=
          chunk_singleton_at hfl hklt (by rw [hsgD, hsgeq])
        have hPk : P[sP.pc]? = some Instr.In := by
          rw [hpcP, hP]
          exact hbwdL _ _ hLk nonbr_in
        cases hin : sQ.input with
        | nil =>
          have hinP : sP.input = [] := by rw [hinp, hin]
          have hstepP := step_in_eof hPk hptrP hinP
          have hstepQ := step_in_eof hQk hptrQ hin
          rcases (runFuel_ok_cases hrun).2 with ⟨hh, _⟩ | ⟨s1, hstep', hrun1⟩
          · rw [hstepP] at hh
            exact StepResult.noConfusion hh
          rw [hstepP] at hstep'
          have hs1 := (StepResult.next.inj hstep').symm
          have hn1 : 1 ≤ n := (runFuel_ok_cases hrun).1
          have hreach1 : iterN P (m0 + 1) (initState input) = some s1 := by
            rw [iterN_comp m0 hreach, iterN_succ, hstepP]
            exact congrArg some hs1.symm
          have hs1mem : s1.mem = sP.mem.set sP.ptr 0 := by rw [hs1]
          have hs1ptr : s1.ptr = sP.ptr := by rw [hs1]
          have hs1inp : s1.input = sP.input := by rw [hs1]
          have hs1out : s1.output = sP.output := by rw [hs1]
          have hs1pc : s1.pc = sP.pc + 1 := by rw [hs1]
          obtain ⟨sQ', hsQ'⟩ : ∃ t, t = ({ sQ with
              mem := sQ.mem.set sQ.ptr 0, pc := sQ.pc + 1 } : BfState) := ⟨_, rfl⟩
          rw [← hsQ'] at hstepQ
          have hQ'pc : sQ'.pc = sQ.pc + 1 := by rw [hsQ']
          have hQ'mem : sQ'.mem = sQ.mem.set sQ.ptr 0 := by rw [hsQ']
          have hQ'ptr : sQ'.ptr = sQ.ptr := by rw [hsQ']
          have hQ'inp : sQ'.input = sQ.input := by rw [hsQ']
          have hQ'out : sQ'.output = sQ.output := by rw [hsQ']
          rcases ih (n - 1) (by omega) sQ' s1 (k + 1) (m0 + 1) out
            (by omega)
            (by omega)
            (by rw [hs1pc, hpcP, hsg1])
            (by rw [hs1mem, hmem, hptr, hQ'mem])
            (by rw [hQ'mem, List.length_set]; exact hcap)
            (by rw [hs1ptr, hptr, hQ'ptr])
            (by rw [hs1inp, hinp, hQ'inp])
            (by rw [hs1out, hout, hQ'out])
            hreach1 hrun1 with ⟨fuel, hfuel⟩
          exact ⟨fuel + 1, runFuel_build_next hstepQ hfuel⟩
        | cons ev rest =>
          cases ev with
          | byte bv =>
            have hinP : sP.input = .byte bv :: rest := by rw [hinp, hin]
            have hstepP := step_in_byte hPk hptrP hinP
            have hstepQ := step_in_byte hQk hptrQ hin
            rcases (runFuel_ok_cases hrun).2 with ⟨hh, _⟩ | ⟨s1, hstep', hrun1⟩
            · rw [hstepP] at hh
              exact StepResult.noConfusion hh
            rw [hstepP] at hstep'
            have hs1 := (StepResult.next.inj hstep').symm
            have hn1 : 1 ≤ n := (runFuel_ok_cases hrun).1
            have hreach1 : iterN P (m0 + 1) (initState input) = some s1 := by
              rw [iterN_comp m0 hreach, iterN_succ, hstepP]
              exact congrArg some hs1.symm
            have hs1mem : s1.mem = sP.mem.set sP.ptr (bv % 256) := by rw [hs1]
            have hs1ptr : s1.ptr = sP.ptr := by rw [hs1]
            have hs1inp : s1.input = rest := by rw [hs1]
            have hs1out : s1.output = sP.output := by rw [hs1]
            have hs1pc : s1.pc = sP.pc + 1 := by rw [hs1]
            obtain ⟨sQ', hsQ'⟩ : ∃ t, t = ({ sQ with
                mem := sQ.mem.set sQ.ptr (bv % 256), input := rest,
                pc := sQ.pc + 1 } : BfState) := ⟨_, rfl⟩
            rw [← hsQ'] at hstepQ
            have hQ'pc : sQ'.pc = sQ.pc + 1 := by rw [hsQ']
            have hQ'mem : sQ'.mem = sQ.mem.set sQ.ptr (bv % 256) := by rw [hsQ']
            have hQ'ptr : sQ'.ptr = sQ.ptr := by rw [hsQ']
            have hQ'inp : sQ'.input = rest := by rw [hsQ']
            have hQ'out : sQ'.output = sQ.output := by rw [hsQ']
            rcases ih (n - 1) (by omega) sQ' s1 (k + 1) (m0 + 1) out
              (by omega)
              (by omega)
              (by rw [hs1pc, hpcP, hsg1])
              (by rw [hs1mem, hmem, hptr, hQ'mem])
              (by rw [hQ'mem, List.length_set]; exact hcap)
              (by rw [hs1ptr, hptr, hQ'ptr])
              (by rw [hs1inp, hQ'inp])
              (by rw [hs1out, hout, hQ'out])
              hreach1 hrun1 with ⟨fuel, hfuel⟩
            exact ⟨fuel + 1, runFuel_build_next hstepQ hfuel⟩
          | fail =>
            have hinP : sP.input = .fail :: rest := by rw [hinp, hin]
            have hstepP := step_in_fail hPk hinP
            rcases (runFuel_ok_cases hrun).2 with ⟨hh, _⟩ | ⟨s1, hstep', _⟩
            · rw [hstepP] at hh
              exact StepResult.noConfusion hh
            · rw [hstepP] at hstep'
              exact StepResult.noConfusion hstep'

/-- C2 (amended): coalescing is a refinement on runs that stay inside the
initial tape: if the unoptimized command-by-command program parses and runs
to successful completion while its pointer always stays below
`INITIAL_CAPACITY`, then the coalesced program produced by `parse` runs to
successful completion with exactly the same output.  (Both restrictions are
forced by the code and witnessed in the counterexample: coalescing `<>` to
`Ptr 0` masks a pointer underflow, and the one-cell `resize` makes the
coalesced program panic where the unoptimized one grows the tape one move
at a time.) -/
theorem c2_coalescing_refinement (src : List Char) (input : List InEvent)
    (Q P : List Instr) (n : Nat) (out : List Nat)
    (hparse : parse src = .ok Q)
    (hunopt : parseUnopt src = .ok P)
    (hbound : ∀ (m : Nat) (s2 : BfState), iterN P m (initState input) = some s2 →
      s2.ptr < INITIAL_CAPACITY)
    (hrun : runFuel P n (initState input) = .ok out) :
    ∃ fuel, runFuel Q fuel (initState input) = .ok out := by
  obtain ⟨πs, hsc, hQw⟩ := parse_ok_pairs hparse
  obtain ⟨πs2, hsc2, hPw⟩ := parseUnopt_ok_pairs hunopt
  obtain ⟨segs, hch, hfl⟩ := coalesce_chunked (src.filterMap charToInstr)
  have hscL : scanBr (src.filterMap charToInstr) 0 [] =
      .ok (πs.map fun p => (startN segs p.1, startN segs p.2), []) := by
    have h := chunked_scan hch segs.length 0 [] πs [] (by omega) (by omega)
      (by rw [List.drop_zero]; exact hsc)
    rw [show startN segs 0 = 0 from rfl, List.drop_zero, List.map_nil, hfl] at h
    exact h
  have hπs2 : πs2 = πs.map fun p => (startN segs p.1, startN segs p.2) := by
    have h0 := Except.ok.inj (hsc2.symm.trans hscL)
    injection h0 with h1 h2
  subst hπs2
  refine sim_main (coalesce (src.filterMap charToInstr)) (src.filterMap charToInstr)
    Q P segs πs input hch hfl hsc hQw hPw hbound n (initState input) (initState input)
    0 0 out (Nat.zero_le _) rfl rfl rfl ?_ rfl rfl rfl rfl hrun
  show (List.replicate INITIAL_CAPACITY (0 : Nat)).length = INITIAL_CAPACITY
  rw [List.length_replicate]

/-- C2 witness: the amended refinement applied to the one-instruction
program `+` with empty input: the unoptimized run succeeds with empty
output and its pointer never moves, so the coalesced program also runs to
success with empty output. -/
theorem c2_witness :
    ∃ fuel, runFuel [Instr.Add 1] fuel (initState []) = .ok [] := by
  have hfetch : [Instr.Add 1][(initState []).pc]? = some (Instr.Add 1) := rfl
  have hlen : (initState []).ptr < (initState []).mem.length := by
    show 0 < (List.replicate INITIAL_CAPACITY (0 : Nat)).length
    rw [List.length_replicate]
    decide
  have hstep1 := step_add hfetch hlen
  obtain ⟨s1, hs1⟩ : ∃ t, t = ({ initState [] with
      mem := (initState []).mem.set (initState []).ptr
        (((initState []).mem.getD (initState []).ptr 0 + 1) % 256),
      pc := (initState []).pc + 1 } : BfState) := ⟨_, rfl⟩
  rw [← hs1] at hstep1
  have hs1pc : s1.pc = 1 := by rw [hs1]; rfl
  have hs1ptr : s1.ptr = 0 := by rw [hs1]; rfl
  have hs1out : s1.output = [] := by rw [hs1]; rfl
  have hstep2 : step [Instr.Add 1] s1 = .halt := by
    refine step_none ?_
    rw [hs1pc]
    rfl
  refine c2_coalescing_refinement ['+'] [] [Instr.Add 1] [Instr.Add 1] 2 [] rfl rfl ?_ ?_
  · intro m s2 h
    rcases m with _ | _ | m
    · have h0 : some (initState []) = some s2 := h
      rcases Option.some.inj h0 with rfl
      show (0 : Nat) < INITIAL_CAPACITY
      decide
    · have h' : iterN [Instr.Add 1] (0 + 1) (initState []) = some s2 := h
      rw [iterN_next hstep1] at h'
      have h0 : some s1 = some s2 := h'
      rcases Option.some.inj h0 with rfl
      rw [hs1ptr]
      decide
    · have h' : iterN [Instr.Add 1] ((m + 1) + 1) (initState []) = some s2 := h
      rw [iterN_next hstep1, iterN_succ, hstep2] at h'
      have h0 : (none : Option BfState) = some s2 := h'
      exact Option.noConfusion h0
  · show runFuel [Instr.Add 1] 2 (initState []) = .ok []
    refine runFuel_build_next hstep1 ?_
    rw [runFuel_build_halt hstep2, hs1out]

/-- C10 witness: an `Add` step at pointer 1 leaves the pointer, the tape
length and the cell at index 0 unchanged. -/
theorem c10_witness :
    (⟨[1, 7], 1, 1, [], []⟩ : BfState).ptr = (⟨[1, 2], 1, 0, [], []⟩ : BfState).ptr ∧
    (⟨[1, 7], 1, 1, [], []⟩ : BfState).mem.length
      = (⟨[1, 2], 1, 0, [], []⟩ : BfState).mem.length ∧
    (⟨[1, 7], 1, 1, [], []⟩ : BfState).mem.getD 0 0
      = (⟨[1, 2], 1, 0, [], []⟩ : BfState).mem.getD 0 0 :=
  ⟨((c10_frame [Instr.Add 5] ⟨[1, 2], 1, 0, [], []⟩ ⟨[1, 7], 1, 1, [], []⟩ rfl).1
      5 rfl).1,
    ((c10_frame [Instr.Add 5] ⟨[1, 2], 1, 0, [], []⟩ ⟨[1, 7], 1, 1, [], []⟩ rfl).1
      5 rfl).2.1,
    ((c10_frame [Instr.Add 5] ⟨[1, 2], 1, 0, [], []⟩ ⟨[1, 7], 1, 1, [], []⟩ rfl).1
      5 rfl).2.2 0 (by decide)⟩

end RustBf
